import Mathlib

/-!
# Mini-Shell: a verification development

A shallow embedding of the read–parse–dispatch–execute loop of the shell
(`argparse.c`, `builtin.c`, `myshell.c`) together with theorems about it.

Conventions of the embedding.

* A `char*` pointing into a NUL-terminated buffer is the list of the bytes from
  the pointer onwards; the byte after the end of the list is the terminating
  NUL, so `*line` is `deref line`, `line++` is `List.tail`, and the pointer
  difference `line - start` is `start.length - line.length`.  A NUL byte inside
  the list is treated as a terminator as well, exactly as the C code would.
* C `int` counters are natural numbers: they count words of one line, and a
  line has fewer than `2^31` words unless it is longer than `2^32` bytes.
* `malloc` and `strndup` are assumed to succeed (on failure the code prints a
  message and leaves through `exit(EXIT_FAILURE)` without returning anything).
* Side effects are recorded as a list of `Event`s; a function that may leave
  through `exit`, `execvp` or undefined behaviour returns an `Outcome`.
* The eight handlers that return to `builtIn` only do input and output: none
  of them calls `exit`, `fork`, `execvp` or `waitpid`.  A call of one of them
  is recorded as one `Event.handler`; the body of `cp` is embedded on its own,
  over a small model of the file system, and so is the body of `tail`, over
  the lines that `getline` delivers from a file.
* The library functions `isspace`, `strcmp`, `strndup`, `strtol` and `atoi` are
  embedded after their documentation (C locale, 64-bit `long`, 32-bit `int`).
* `Event.stdout` records a call of `printf` by the process whose trace it is
  in, not the moment at which the bytes reach the descriptor: standard output
  is buffered and the code never flushes it.  What a forked child writes is
  not in the trace of its parent.
* `Event.freeArg` shows the string as `argparse` made it; the handler `env`
  cuts `args[1]` at its `=` before the string is freed.
-/

namespace MiniShell

/-! ## Characters and C strings -/

/-- The terminating byte of a C string. -/
def NUL : Char := Char.ofNat 0

/-- The `isspace` of `<ctype.h>` in the C locale: space, `\t`, `\n`, `\v`,
`\f`, `\r`. -/
def isspace (c : Char) : Bool :=
  c == ' ' || c == '\t' || c == '\n' || c == Char.ofNat 11 || c == Char.ofNat 12 || c == '\r'

/-- The byte `*line` a pointer designates; past the end of the list it is the
terminator. -/
def deref (line : List Char) : Char :=
  match line with
  | [] => NUL
  | c :: _ => c

/-! ## `argparse.c` -/

/-- The `while (*line != 0)` loop of `argCount`, on the state `(count, inWord)`;
it returns the state in which the loop stops. -/
def argCountLoop : List Char → Nat → Bool → Nat × Bool
  | [], count, inWord => (count, inWord)
  | c :: line, count, inWord =>
    if c = NUL then (count, inWord)
    else if isspace c then
      if inWord then argCountLoop line (count + 1) false
      else argCountLoop line count inWord
    else
      if !inWord then argCountLoop line count true
      else argCountLoop line count inWord

/-- The function `argCount`: the loop followed by the final
`if (inWord) count++`. -/
def argCount (line : List Char) : Nat :=
  let st := argCountLoop line 0 false
  if st.2 then st.1 + 1 else st.1

/-- One cell of the `char**` array that `argparse` allocates. -/
inductive Slot where
  /-- Memory fresh from `malloc`, never written. -/
  | uninit : Slot
  /-- The pointer `NULL`. -/
  | null : Slot
  /-- A pointer to a heap string with the given bytes before its NUL. -/
  | str (s : List Char) : Slot
  deriving DecidableEq, Repr

/-- What goes wrong in the embedding rather than in the source's own error
handling. -/
inductive Fault where
  /-- A store outside the allocated array. -/
  | outOfBounds : Fault
  /-- The iteration bound of the embedding was reached. -/
  | outOfFuel : Fault
  deriving DecidableEq, Repr

deriving instance DecidableEq for Except

/-- The assignment `args[i] = v`, checked against the size of the allocation. -/
def store (args : List Slot) (i : Nat) (v : Slot) : Option (List Slot) :=
  if i < args.length then some (args.set i v) else none

/-- The loop `while (isspace(*line)) line++;`. -/
def skipSpace : List Char → List Char
  | [] => []
  | c :: line => if isspace c then skipSpace line else c :: line

/-- The loop `while (*line != 0 && !isspace(*line)) line++;`. -/
def skipWord : List Char → List Char
  | [] => []
  | c :: line => if c != NUL && !isspace c then skipWord line else c :: line

/-- The library function `strndup(start, n)`: at most `n` bytes of the string
at `start`, which ends at its first NUL. -/
def strndup (start : List Char) (n : Nat) : List Char :=
  (start.take n).takeWhile (fun c => c != NUL)

/-- The extraction loop of `argparse` (the outer `while (*line != 0)`), on the
state `(line, i, args)`; it returns the array and the final value of `i`.
The first argument bounds the number of iterations. -/
def extractLoop : Nat → List Char → Nat → List Slot → Except Fault (List Slot × Nat)
  | 0, _, _, _ => .error .outOfFuel
  | fuel + 1, line, i, args =>
    if deref line ≠ NUL then
      let line₁ := skipSpace line
      if deref line₁ = NUL then .ok (args, i)
      else
        let start := line₁
        let line₂ := skipWord line₁
        let length := start.length - line₂.length
        match store args i (.str (strndup start length)) with
        | none => .error .outOfBounds
        | some args₁ => extractLoop fuel line₂ (i + 1) args₁
    else .ok (args, i)

/-- The body of `argparse` up to and including the extraction loop: the count
pre-pass, the allocation of `*argcp + 1` cells and the loop.  Every iteration
of the loop consumes at least one byte, so `line.length + 1` iterations are
enough. -/
def argparseLoop (line : List Char) : Except Fault (List Slot × Nat) :=
  let argcp := argCount line
  let args := List.replicate (argcp + 1) Slot.uninit
  extractLoop (line.length + 1) line 0 args

/-- The function `argparse`: returns the array and the value stored in
`*argcp`. -/
def argparse (line : List Char) : Except Fault (List Slot × Nat) :=
  match argparseLoop line with
  | .error e => .error e
  | .ok (args, i) =>
    match store args i .null with
    | none => .error .outOfBounds
    | some args₁ => .ok (args₁, argCount line)

/-! ## Library functions used by `builtin.c` -/

/-- The library function `strcmp`: the difference of the first pair of bytes
that differ (the terminator included), `0` when there is none. -/
def strcmp : List Char → List Char → Int
  | [], b => (NUL.toNat : Int) - ((deref b).toNat : Int)
  | a :: _, [] => (a.toNat : Int) - (NUL.toNat : Int)
  | a :: as, b :: bs =>
    if a ≠ b then (a.toNat : Int) - (b.toNat : Int)
    else if a = NUL then 0
    else strcmp as bs

/-- The digits loop of `strtol` in base 10: the value of the longest prefix of
decimal digits, continuing from `acc`. -/
def strtolDigits : List Char → Nat → Nat
  | [], acc => acc
  | c :: s, acc =>
    if '0' ≤ c ∧ c ≤ '9' then strtolDigits s (acc * 10 + (c.toNat - '0'.toNat)) else acc

/-- The library function `strtol(s, NULL, 10)` for a 64-bit `long`: leading
white space, an optional sign, decimal digits; a value out of range is
replaced by `LONG_MAX` or `LONG_MIN`. -/
def strtol (s : List Char) : Int :=
  let s₁ := skipSpace s
  let neg := deref s₁ == '-'
  let s₂ := if deref s₁ == '-' || deref s₁ == '+' then s₁.tail else s₁
  let v : Int := strtolDigits s₂ 0
  if neg then max (-v) (-(2 ^ 63)) else min v (2 ^ 63 - 1)

/-- The library function `atoi`, which is `(int) strtol(s, NULL, 10)`: the
`long` is cut down to a 32-bit two's complement `int`. -/
def atoi (s : List Char) : Int :=
  (strtol s + 2 ^ 31) % 2 ^ 32 - 2 ^ 31

/-! ## Effects -/

/-- The built-in handlers that `builtIn` calls and that return to it. -/
inductive Handler where
  | pwd | cd | ls | cp | env | stat_file | tail | touch
  deriving DecidableEq, Repr

/-- What one call of `getline` on standard input delivers. -/
inductive ReadResult where
  /-- A line was read: its bytes, the final newline included when there is
  one. -/
  | line (bytes : List Char) : ReadResult
  /-- The call returned `-1` and `feof(stdin)` is false. -/
  | error : ReadResult
  /-- The call returned `-1` and `feof(stdin)` is true. -/
  | eof : ReadResult
  deriving DecidableEq, Repr

/-- The observable actions of the program. -/
inductive Event where
  /-- A call of `printf` on standard output with this text.  The text goes to
  the stdio buffer of the process; it reaches the descriptor when the library
  writes the buffer out, in `exit` at the latest. -/
  | stdout (text : String) : Event
  /-- Text written to standard error with `fprintf`. -/
  | stderr (text : String) : Event
  /-- The call `perror(tag)`, which writes to standard error. -/
  | perror (tag : String) : Event
  /-- A call of `getline` on standard input and what it delivered. -/
  | getline (r : ReadResult) : Event
  /-- A call of one of the built-in handlers with its two arguments. -/
  | handler (h : Handler) (args : List Slot) (argcp : Nat) : Event
  /-- A call of `fork` and its return value. -/
  | fork (cpid : Int) : Event
  /-- The call `execvp(file, argv)`. -/
  | execvp (file : Slot) (argv : List Slot) : Event
  /-- The call `waitpid(pid, &status, 0)`. -/
  | waitpid (pid : Int) : Event
  /-- The call `free(arguments[i])`. -/
  | freeArg (i : Nat) (p : Slot) : Event
  /-- The call `free(arguments)`. -/
  | freeArgs : Event
  /-- The call `free(line)` of the read loop. -/
  | freeLine : Event
  /-- The call `stat(path, &buf)`. -/
  | stat (path : List Char) : Event
  /-- The call `open(path, flags)`; `wr` is false for `O_RDONLY` and true for
  `O_WRONLY | O_CREAT | O_TRUNC`. -/
  | open (path : List Char) (wr : Bool) : Event
  /-- A call of `read` on the source descriptor that delivered these bytes. -/
  | read (bytes : List Char) : Event
  /-- A call of `write` of these bytes on the destination descriptor. -/
  | write (bytes : List Char) : Event
  /-- A call of `close`; `wr` tells which of the two descriptors. -/
  | close (wr : Bool) : Event
  deriving DecidableEq, Repr

/-- How a function of the program ends. -/
inductive Outcome (α : Type) where
  /-- It returns to its caller. -/
  | returned (a : α) : Outcome α
  /-- The process ends in a call `exit(status)`. -/
  | exited (status : Int) : Outcome α
  /-- The process image was replaced by a successful `execvp`. -/
  | execed : Outcome α
  /-- Undefined behaviour: a null or wild pointer is read or written. -/
  | fault : Outcome α
  deriving DecidableEq, Repr

/-- The value of `EXIT_SUCCESS`. -/
def EXIT_SUCCESS : Int := 0

/-- The value of `EXIT_FAILURE`. -/
def EXIT_FAILURE : Int := 1

/-! ## `builtin.c`: the dispatcher -/

/-- The function `exitProgram`: it reads `args[1]` when `argcp > 1` and calls
`exit`; it has no return value because it does not return. -/
def exitProgram (args : List Slot) (argcp : Nat) : Outcome Empty :=
  if argcp > 1 then
    match args.get? 1 with
    | some (.str s) => .exited (atoi s)
    | _ => .fault
  else .exited 0

/-- A call of a handler other than `exitProgram` followed by `return 1`. -/
def callHandler (h : Handler) (args : List Slot) (argcp : Nat) : List Event × Outcome Int :=
  ([.handler h args argcp], .returned 1)

/-- The function `builtIn`: the chain of `strcmp(args[0], name) == 0` tests.
Reading `args[0]` when it is not a string is undefined behaviour. -/
def builtIn (args : List Slot) (argcp : Nat) : List Event × Outcome Int :=
  match args.head? with
  | some (.str a) =>
    if strcmp a "exit".toList = 0 then
      match exitProgram args argcp with
      | .exited status => ([], .exited status)
      | .execed => ([], .execed)
      | .fault => ([], .fault)
    else if strcmp a "pwd".toList = 0 then callHandler .pwd args argcp
    else if strcmp a "cd".toList = 0 then callHandler .cd args argcp
    else if strcmp a "ls".toList = 0 then callHandler .ls args argcp
    else if strcmp a "cp".toList = 0 then callHandler .cp args argcp
    else if strcmp a "env".toList = 0 then callHandler .env args argcp
    else if strcmp a "stat".toList = 0 then callHandler .stat_file args argcp
    else if strcmp a "tail".toList = 0 then callHandler .tail args argcp
    else if strcmp a "touch".toList = 0 then callHandler .touch args argcp
    else ([], .returned 0)
  | _ => ([], .fault)

/-! ## `builtin.c`: the `cp` handler -/

/-- The part of the file system that `cp` looks at.  A file is identified by
its pair `(st_dev, st_ino)`. -/
structure FileSys where
  /-- The file a path resolves to, when `stat` on the path succeeds. -/
  lookup : List Char → Option (Nat × Nat)
  /-- The bytes of a file. -/
  content : Nat × Nat → List Char
  /-- Whether `open(path, O_RDONLY)` is permitted on a path that resolves. -/
  readable : List Char → Bool
  /-- The file that `open(path, O_WRONLY | O_CREAT | O_TRUNC, mode)` opens: the
  file the path resolves to or a new one, or none when the call fails. -/
  writable : List Char → Option (Nat × Nat)

/-- The file system after `open(path, O_WRONLY | O_CREAT | O_TRUNC, mode)` has
opened the file `f`: the path resolves to `f` and `f` is empty. -/
def FileSys.truncate (fs : FileSys) (path : List Char) (f : Nat × Nat) : FileSys :=
  { fs with
    lookup := fun p => if p = path then some f else fs.lookup p
    content := fun g => if g = f then [] else fs.content g }

/-- The file system after `write` has appended bytes to the file `f`. -/
def FileSys.append (fs : FileSys) (f : Nat × Nat) (bytes : List Char) : FileSys :=
  { fs with content := fun g => if g = f then fs.content f ++ bytes else fs.content g }

/-- The copy loop of `cp`: `read` delivers up to 4096 bytes of the source file
`src` from the offset `off`, `write` appends them to the destination file
`dst`; both calls are assumed to succeed.  The first argument bounds the
number of iterations. -/
def cpLoop : Nat → FileSys → Nat × Nat → Nat × Nat → Nat → FileSys × List Event
  | 0, fs, _, _, _ => (fs, [])
  | fuel + 1, fs, src, dst, off =>
    let buffer := ((fs.content src).drop off).take 4096
    if buffer.length > 0 then
      let r := cpLoop fuel (fs.append dst buffer) src dst (off + buffer.length)
      (r.1, .read buffer :: .write buffer :: r.2)
    else (fs, [.read []])

/-- The text of a C string as a `String`, for messages. -/
def text (s : List Char) : String := String.mk (s.takeWhile (fun c => c != NUL))

/-- The function `cp`, on a file system; it returns the file system it leaves
and what it did.  Reading `args[1]` or `args[2]` when it is not a string is
undefined behaviour and reported as `none`. -/
def cp (fs : FileSys) (args : List Slot) (argcp : Nat) : Option (FileSys × List Event) :=
  if argcp ≠ 3 then
    some (fs, [.stderr "Usage: cp <source> <destination>\n"])
  else
    match args.get? 1, args.get? 2 with
    | some (.str srcPath), some (.str destPath) =>
      match fs.lookup srcPath with
      | some srcStat =>
        if fs.lookup destPath = some srcStat then
          some (fs, [.stat srcPath, .stat destPath,
            .stderr ("cp: \x27" ++ text srcPath ++ "\x27 and \x27" ++ text destPath ++
              "\x27 are the same file\n")])
        else if fs.readable srcPath = false then
          some (fs, [.stat srcPath, .stat destPath, .open srcPath false,
            .perror "Error opening source file"])
        else
          match fs.writable destPath with
          | none =>
            some (fs, [.stat srcPath, .stat destPath, .open srcPath false,
              .open destPath true, .perror "Error opening destination file", .close false])
          | some destFile =>
            let r := cpLoop ((fs.content srcStat).length + 1) (fs.truncate destPath destFile)
              srcStat destFile 0
            some (r.1, [.stat srcPath, .stat destPath, .open srcPath false,
              .open destPath true] ++ r.2 ++ [.close false, .close true])
      | none => some (fs, [.stat srcPath, .perror "Error getting source file info"])
    | _, _ => none

/-! ## `myshell.c` -/

/-- The loop of `processline` that frees `arguments[i]` for `i < argCount`,
from index `i` on. -/
def freeLoop (arguments : List Slot) (argCount : Nat) (i : Nat) : List Event :=
  ((List.range argCount).drop i).map (fun j => Event.freeArg j (arguments.getD j .uninit))

/-- The function `processline`.  `cpid` is the value `fork` returns if it is
called, and `execFails` tells whether `execvp` returns if it is called. -/
def processline (line : List Char) (cpid : Int) (execFails : Bool) : List Event × Outcome Unit :=
  if deref line = NUL then ([], .returned ())
  else
    match argparse line with
    | .error _ => ([], .fault)
    | .ok (arguments, argCount) =>
      let cleanup := freeLoop arguments argCount 0 ++ [Event.freeArgs]
      match builtIn arguments argCount with
      | (es, .exited status) => (es, .exited status)
      | (es, .execed) => (es, .execed)
      | (es, .fault) => (es, .fault)
      | (es, .returned r) =>
        if r = 0 then
          if cpid < 0 then
            (es ++ [.fork cpid, .perror "fork"], .exited EXIT_FAILURE)
          else if cpid = 0 then
            if execFails then
              (es ++ [.fork cpid, .execvp (arguments.getD 0 .uninit) arguments, .perror "execvp"],
                .exited EXIT_FAILURE)
            else
              (es ++ [.fork cpid, .execvp (arguments.getD 0 .uninit) arguments], .execed)
          else
            (es ++ [.fork cpid, .waitpid cpid] ++ cleanup, .returned ())
        else (es ++ cleanup, .returned ())

/-- The function `getinput`: it returns the length and the buffer with the
final newline replaced by the terminator.  A successful `getline` delivers at
least one byte; the read of `(*line)[len - 1]` is undefined behaviour
otherwise. -/
def getinput (r : ReadResult) : List Event × Outcome (Int × List Char) :=
  match r with
  | .eof => ([.getline r], .exited EXIT_SUCCESS)
  | .error => ([.getline r, .perror "getline"], .returned (-1, []))
  | .line bytes =>
    match bytes.getLast? with
    | none => ([.getline r], .fault)
    | some c =>
      if c = '\n' then ([.getline r], .returned ((bytes.length : Int) - 1, bytes.dropLast))
      else ([.getline r], .returned ((bytes.length : Int), bytes))

/-- One iteration's worth of answers of the environment: what `getline`
delivers, and what `fork` and `execvp` would do if `processline` reaches
them. -/
structure Turn where
  /-- The result of `getline`. -/
  input : ReadResult
  /-- The return value of `fork`. -/
  cpid : Int
  /-- Whether `execvp` fails in this iteration, in the process that calls it:
  this process when `fork` returned 0, the child when `fork` returned the
  process id of the child. -/
  execFails : Bool
  deriving DecidableEq, Repr

/-- The prompt printed at the top of the read loop. -/
def prompt : Event := .stdout "%myshell% "

/-- The function `main`: the loop `while (1)`, one iteration per `Turn`; after
the last turn standard input is at end-of-file.  The trace is what this
process does.  A child that `fork` creates is a process of its own (its run is
the one with `cpid = 0`): when its `execvp` fails it leaves through `exit`,
which writes out its copy of whatever was in the stdio buffer at the `fork`,
and these writes of the child are not in the trace of the parent. -/
def main : List Turn → List Event × Outcome Unit
  | [] =>
    match getinput .eof with
    | (es, .exited status) => (prompt :: es, .exited status)
    | (es, _) => (prompt :: es, .fault)
  | t :: turns =>
    match getinput t.input with
    | (es, .exited status) => (prompt :: es, .exited status)
    | (es, .execed) => (prompt :: es, .execed)
    | (es, .fault) => (prompt :: es, .fault)
    | (es, .returned (len, line)) =>
      if len < 0 then
        let r := main turns
        (prompt :: es ++ [.stderr "Error reading input\n"] ++ r.1, r.2)
      else if len = 0 then
        let r := main turns
        (prompt :: es ++ r.1, r.2)
      else
        match processline line t.cpid t.execFails with
        | (ps, .returned _) =>
          let r := main turns
          (prompt :: es ++ ps ++ [.freeLine] ++ r.1, r.2)
        | (ps, .exited status) => (prompt :: es ++ ps, .exited status)
        | (ps, .execed) => (prompt :: es ++ ps, .execed)
        | (ps, .fault) => (prompt :: es ++ ps, .fault)

/-! ## `builtin.c`: the `tail` handler -/

/-- The constant `MAX_LINES`. -/
def MAX_LINES : Nat := 10

/-- The library function `strdup`: a copy of the string, which ends at its
first NUL. -/
def strdup (s : List Char) : List Char :=
  s.takeWhile (fun c => c != NUL)

/-- The local variables of `printLastLines` that its two loops work on: the
array `lines` and the counters `currentLine` and `totalLines`.  The counters
are `size_t` and count lines of one file, which has fewer than `2^63` bytes. -/
structure TailState where
  /-- The array `char* lines[MAX_LINES]`. -/
  lines : List Slot
  /-- The index of the cell that the next line goes to. -/
  currentLine : Nat
  /-- The number of lines read so far. -/
  totalLines : Nat

/-- The loop `while ((nread = getline(&buffer, &len, file)) != -1)` of
`printLastLines`, one iteration per line that `getline` delivers from the
file.  The old string of the cell is freed, which leaves no trace here. -/
def readLines : List (List Char) → TailState → TailState
  | [], st => st
  | buffer :: file, st =>
    readLines file
      { lines := st.lines.set st.currentLine (.str (strdup buffer))
        currentLine := (st.currentLine + 1) % MAX_LINES
        totalLines := st.totalLines + 1 }

/-- The loop `for (i = 0; i < MAX_LINES && lines[(startLine + i) % MAX_LINES]; i++)`
of `printLastLines`, from the index `i` on: it prints the string of the cell
with `printf("%s", ...)`.  The first argument bounds the number of
iterations. -/
def printLoop (lines : List Slot) (startLine : Nat) : Nat → Nat → List Event
  | 0, _ => []
  | fuel + 1, i =>
    if i < MAX_LINES then
      match lines.getD ((startLine + i) % MAX_LINES) .null with
      | .str s => .stdout (text s) :: printLoop lines startLine fuel (i + 1)
      | _ => []
    else []

/-- The function `printLastLines`.  `file` is `none` when `fopen` fails, and
otherwise the lines that the successive calls of `getline` deliver until it
returns `-1`, each with its final newline when it has one.  The print loop
makes at most `MAX_LINES` iterations, so the bound `MAX_LINES + 1` is never
reached. -/
def printLastLines (filename : List Char) (file : Option (List (List Char))) : List Event :=
  match file with
  | none => [.perror (text filename)]
  | some contents =>
    let st := readLines contents ⟨List.replicate MAX_LINES .null, 0, 0⟩
    let startLine := if st.totalLines < MAX_LINES then 0 else st.currentLine
    printLoop st.lines startLine (MAX_LINES + 1) 0

/-- The loop `for (int i = 1; i < argcp; i++)` of `tail`, from the index `i`
on.  `files` tells what `fopen` and `getline` deliver for a file name.
Reading `args[i]` when it is not a string is undefined behaviour and reported
as `none`.  The first argument bounds the number of iterations. -/
def tailLoop (files : List Char → Option (List (List Char))) (args : List Slot) (argcp : Nat) :
    Nat → Nat → Option (List Event)
  | 0, _ => some []
  | fuel + 1, i =>
    if i < argcp then
      match args.get? i with
      | some (.str name) =>
        let header := if argcp > 2 then [Event.stdout ("==> " ++ text name ++ " <==\n")] else []
        let body := printLastLines name (files name)
        let sep := if i < argcp - 1 then [Event.stdout "\n"] else []
        match tailLoop files args argcp fuel (i + 1) with
        | some more => some (header ++ body ++ sep ++ more)
        | none => none
      | _ => none
    else some []

/-- The function `tail`.  The loop starts at `i = 1` and stops at `argcp`, so
`argcp` iterations are enough. -/
def tail (files : List Char → Option (List (List Char))) (args : List Slot) (argcp : Nat) :
    Option (List Event) :=
  if argcp < 2 then some [.stderr "Usage: tail <file1...fileN>\n"]
  else tailLoop files args argcp argcp 1

/-! ## Specifications and notions used in the theorems -/

/-- A byte that belongs to a word: neither the terminator nor white space. -/
def wordChar (c : Char) : Bool := c != NUL && !isspace c

/-- Auxiliary: the words of a line, written with `takeWhile` and `dropWhile`
(skip white space, stop at the terminator, cut the word, go on behind it).
The lemmas relate the loops of `argparse.c` and the specification `maxWords`
to this function. -/
def wordsOf (line : List Char) : List (List Char) :=
  match h : line.dropWhile isspace with
  | [] => []
  | c :: rest =>
    if c = NUL then []
    else (c :: rest.takeWhile wordChar) :: wordsOf (rest.dropWhile wordChar)
termination_by line.length
decreasing_by
  have h₁ := (List.dropWhile_suffix isspace : line.dropWhile isspace <:+ line).length_le
  have h₂ := (List.dropWhile_suffix wordChar : rest.dropWhile wordChar <:+ rest).length_le
  rw [h] at h₁
  simp only [List.length_cons] at h₁
  omega

/-- Specification: the bytes of `line` at the indices `a ≤ k < b` form a
maximal non-empty substring without white space: it is not empty, it lies
inside the line, none of its bytes is white space, and it can be extended
neither to the left nor to the right (there the line ends or a white space
byte stands). -/
def IsMaxWord (line : List Char) (a b : Nat) : Prop :=
  a < b ∧ b ≤ line.length ∧
  (∀ k, a ≤ k → k < b → isspace (line.getD k NUL) = false) ∧
  (a = 0 ∨ isspace (line.getD (a - 1) NUL) = true) ∧
  (b = line.length ∨ isspace (line.getD b NUL) = true)

instance (line : List Char) (a b : Nat) : Decidable (IsMaxWord line a b) := by
  unfold IsMaxWord
  infer_instance

/-- The substring of `line` at the indices `a ≤ k < b`. -/
def substr (line : List Char) (s : Nat × Nat) : List Char :=
  (line.drop s.1).take (s.2 - s.1)

/-- Specification: the positions `(a, b)` of all maximal non-empty substrings
of the line without white space, from left to right. -/
def maxWordSpans (line : List Char) : List (Nat × Nat) :=
  (List.range line.length).flatMap fun a =>
    ((List.range (line.length + 1)).filter fun b => decide (IsMaxWord line a b)).map
      fun b => (a, b)

/-- Specification: the maximal non-empty substrings of the line without white
space, from left to right. -/
def maxWords (line : List Char) : List (List Char) :=
  (maxWordSpans line).map (substr line)

/-- The order of positions from left to right. -/
def spanLt (s t : Nat × Nat) : Prop := s.1 < t.1 ∨ (s.1 = t.1 ∧ s.2 < t.2)

/-- Specification: the tokens joined with single spaces. -/
def joinWords (toks : List (List Char)) : List Char :=
  [' '].intercalate toks

/-- The name that `builtIn` compares `args[0]` with before it calls the
handler. -/
def Handler.name : Handler → List Char
  | .pwd => "pwd".toList
  | .cd => "cd".toList
  | .ls => "ls".toList
  | .cp => "cp".toList
  | .env => "env".toList
  | .stat_file => "stat".toList
  | .tail => "tail".toList
  | .touch => "touch".toList

/-- The nine names that `builtIn` knows. -/
def builtinNames : List (List Char) :=
  ["exit".toList, "pwd".toList, "cd".toList, "ls".toList, "cp".toList, "env".toList,
    "stat".toList, "tail".toList, "touch".toList]

/-- The status that `exitProgram` passes to `exit`, read off the cells behind
`args[0]`: the value of the second token when there is one, otherwise 0. -/
def exitStatus (rest : List Slot) : Int :=
  match rest with
  | .str s :: _ => atoi s
  | _ => 0

/-- The return values of the calls of `fork` in a trace, in order. -/
def forkCalls (es : List Event) : List Int :=
  es.filterMap fun e => match e with
    | .fork cpid => some cpid
    | _ => none

/-- The process ids that the calls of `waitpid` in a trace wait for, in
order. -/
def waitCalls (es : List Event) : List Int :=
  es.filterMap fun e => match e with
    | .waitpid pid => some pid
    | _ => none

/-- The calls of built-in handlers in a trace, in order. -/
def handlerCalls (es : List Event) : List (Handler × List Slot × Nat) :=
  es.filterMap fun e => match e with
    | .handler h args argcp => some (h, args, argcp)
    | _ => none

/-- The number of prompts that the process prints in a trace. -/
def promptCount (es : List Event) : Nat :=
  es.countP fun e => e == prompt

/-- The number of calls of `getline` in a trace that delivered a line. -/
def linesRead (es : List Event) : Nat :=
  es.countP fun e => match e with
    | .getline (.line _) => true
    | _ => false

/-- Whether an event is an action of the read loop itself: writing to standard
output or reading standard input. -/
def isLoopAct (e : Event) : Bool :=
  match e with
  | .stdout _ => true
  | .getline _ => true
  | _ => false

/-- Specification: the character that stands for the decimal digit `d`. -/
def digitChar (d : Nat) : Char := Char.ofNat ('0'.toNat + d)

/-- Specification: the last `min n MAX_LINES` lines of a file of `n` lines, in
the order of the file. -/
def lastLines (file : List (List Char)) : List (List Char) :=
  file.drop (file.length - min file.length MAX_LINES)

/-- Auxiliary: the state of the ring of `printLastLines` after the lines `pre`
have been read.  The counters are where they should be, the cell `k % MAX_LINES`
holds the copy of line `k` for each of the last `MAX_LINES` lines, and the
cells that no line has reached yet hold `NULL`. -/
def RingInv (pre : List (List Char)) (st : TailState) : Prop :=
  st.lines.length = MAX_LINES ∧ st.currentLine = pre.length % MAX_LINES ∧
  st.totalLines = pre.length ∧
  (∀ k, pre.length - MAX_LINES ≤ k → k < pre.length →
    st.lines.getD (k % MAX_LINES) .null = .str (strdup (pre.getD k []))) ∧
  (∀ j, pre.length ≤ j → j < MAX_LINES → st.lines.getD j .null = .null)

/-! ## Lemmas on the embedding -/

theorem isspace_NUL : isspace NUL = false := by decide

theorem wordChar_eq_false_iff (c : Char) : wordChar c = false ↔ c = NUL ∨ isspace c = true := by
  unfold wordChar
  by_cases h : c = NUL <;> simp [h]

theorem skipSpace_eq (l : List Char) : skipSpace l = l.dropWhile isspace := by
  induction l with
  | nil => rfl
  | cons c l ih =>
    by_cases h : isspace c = true
    · simp [skipSpace, h, ih]
    · simp [skipSpace, h]

theorem skipWord_eq (l : List Char) : skipWord l = l.dropWhile wordChar := by
  induction l with
  | nil => rfl
  | cons c l ih =>
    by_cases h : wordChar c = true
    · have h' : (c != NUL && !isspace c) = true := h
      rw [skipWord, if_pos h', List.dropWhile_cons_of_pos h, ih]
    · have h' : ¬ (c != NUL && !isspace c) = true := h
      rw [skipWord, if_neg h', List.dropWhile_cons_of_neg h]

theorem strndup_eq (l : List Char) :
    strndup l (l.length - (skipWord l).length) = l.takeWhile wordChar := by
  have hlen : l.length - (skipWord l).length = (l.takeWhile wordChar).length := by
    have := congrArg List.length (List.takeWhile_append_dropWhile wordChar l)
    rw [skipWord_eq]
    simp only [List.length_append] at this
    omega
  have htake : l.take (l.takeWhile wordChar).length = l.takeWhile wordChar := by
    have := @List.take_left _ (l.takeWhile wordChar) (l.dropWhile wordChar)
    rwa [List.takeWhile_append_dropWhile] at this
  unfold strndup
  rw [hlen, htake, List.takeWhile_eq_self_iff]
  intro c hc
  have := List.mem_takeWhile_imp hc
  simp [wordChar] at this
  simp [this.1]

theorem length_dropWhile_le (p : Char → Bool) (l : List Char) :
    (l.dropWhile p).length ≤ l.length :=
  (List.dropWhile_suffix p).length_le

theorem head_dropWhile_isspace {l : List Char} {c : Char} {rest : List Char}
    (h : l.dropWhile isspace = c :: rest) : isspace c = false := by
  have := List.head?_dropWhile_not isspace l
  rw [h] at this
  simpa using this

theorem wordsOf_of_nil {line : List Char} (h : line.dropWhile isspace = []) :
    wordsOf line = [] := by
  rw [wordsOf]
  split
  · rfl
  · simp_all

theorem wordsOf_of_cons {line : List Char} {c : Char} {rest : List Char}
    (h : line.dropWhile isspace = c :: rest) :
    wordsOf line =
      if c = NUL then []
      else (c :: rest.takeWhile wordChar) :: wordsOf (rest.dropWhile wordChar) := by
  rw [wordsOf]
  split
  · simp_all
  · rename_i c' rest' h'
    rw [h] at h'
    cases h'
    rfl

theorem wordsOf_nil : wordsOf [] = [] := wordsOf_of_nil rfl

theorem wordsOf_cons_space {c : Char} (l : List Char) (h : isspace c = true) :
    wordsOf (c :: l) = wordsOf l := by
  cases hl : l.dropWhile isspace with
  | nil =>
    rw [wordsOf_of_nil hl, wordsOf_of_nil]
    rw [List.dropWhile_cons_of_pos h, hl]
  | cons d rest =>
    rw [wordsOf_of_cons hl, wordsOf_of_cons]
    rw [List.dropWhile_cons_of_pos h, hl]

theorem wordsOf_cons_NUL (l : List Char) : wordsOf (NUL :: l) = [] := by
  have h : (NUL :: l).dropWhile isspace = NUL :: l :=
    List.dropWhile_cons_of_neg (by simp [isspace_NUL])
  rw [wordsOf_of_cons h]
  simp

theorem wordsOf_cons_word {c : Char} (l : List Char) (h : wordChar c = true) :
    wordsOf (c :: l) = (c :: l.takeWhile wordChar) :: wordsOf (l.dropWhile wordChar) := by
  have h' : c ≠ NUL ∧ isspace c = false := by simpa [wordChar] using h
  have hd : (c :: l).dropWhile isspace = c :: l :=
    List.dropWhile_cons_of_neg (by simp [h'.2])
  rw [wordsOf_of_cons hd]
  simp [h'.1]

theorem wordChar_NUL : wordChar NUL = false := by decide

theorem argCountLoop_spec (l : List Char) : ∀ count : Nat,
    ((argCountLoop l count false).1 + (if (argCountLoop l count false).2 then 1 else 0)
        = count + (wordsOf l).length) ∧
    ((argCountLoop l count true).1 + (if (argCountLoop l count true).2 then 1 else 0)
        = count + 1 + (wordsOf (l.dropWhile wordChar)).length) := by
  induction l with
  | nil => intro count; simp [argCountLoop, wordsOf_nil]
  | cons c l ih =>
    intro count
    by_cases hN : c = NUL
    · subst hN
      simp [argCountLoop, wordsOf_cons_NUL, List.dropWhile_cons_of_neg, wordChar_NUL]
    · by_cases hs : isspace c = true
      · have hw : ¬ wordChar c = true := by simp [wordChar, hs]
        simp only [argCountLoop, if_neg hN, hs, if_true, wordsOf_cons_space l hs,
          List.dropWhile_cons_of_neg hw]
        exact ⟨(ih count).1, by simpa using (ih (count + 1)).1⟩
      · have hw : wordChar c = true := by simp [wordChar, hN, hs]
        have hs' : isspace c = false := by simpa using hs
        have e₁ : argCountLoop (c :: l) count false = argCountLoop l count true := by
          simp [argCountLoop, hN, hs']
        have e₂ : argCountLoop (c :: l) count true = argCountLoop l count true := by
          simp [argCountLoop, hN, hs']
        have h₂ := (ih count).2
        rw [e₁, e₂, wordsOf_cons_word l hw, List.dropWhile_cons_of_pos hw]
        refine ⟨?_, h₂⟩
        simp only [List.length_cons]
        rw [h₂]
        omega

theorem argCount_eq (line : List Char) : argCount line = (wordsOf line).length := by
  have h := (argCountLoop_spec line 0).1
  unfold argCount
  simp only [Nat.zero_add] at h
  rw [← h]
  split <;> simp_all

theorem store_append (pre post : List Slot) (m v : Slot) :
    store (pre ++ m :: post) pre.length v = some (pre ++ v :: post) := by
  unfold store
  simp

theorem extractLoop_eq : ∀ (fuel : Nat) (line : List Char) (pre mid post : List Slot),
    line.length < fuel → mid.length = (wordsOf line).length →
    extractLoop fuel line pre.length (pre ++ mid ++ post) =
      .ok (pre ++ (wordsOf line).map Slot.str ++ post, pre.length + (wordsOf line).length) := by
  intro fuel
  induction fuel with
  | zero => intro line pre mid post h; omega
  | succ fuel ih =>
    intro line pre mid post hfuel hmid
    rw [extractLoop]
    cases hl : line.dropWhile isspace with
    | nil =>
      rw [wordsOf_of_nil hl] at hmid ⊢
      have : mid = [] := List.length_eq_zero.mp hmid
      subst this
      simp [skipSpace_eq, hl, deref]
    | cons c rest =>
      by_cases hN : c = NUL
      · have hw : wordsOf line = [] := by rw [wordsOf_of_cons hl]; simp [hN]
        rw [hw] at hmid ⊢
        have : mid = [] := List.length_eq_zero.mp hmid
        subst this
        simp [skipSpace_eq, hl, deref, hN]
      · have hs : isspace c = false := head_dropWhile_isspace hl
        have hwc : wordChar c = true := by simp [wordChar, hN, hs]
        have hw : wordsOf line =
            (c :: rest.takeWhile wordChar) :: wordsOf (rest.dropWhile wordChar) := by
          rw [wordsOf_of_cons hl]; simp [hN]
        rw [hw] at hmid ⊢
        have hline : deref line ≠ NUL := by
          cases line with
          | nil => simp at hl
          | cons d l =>
            by_cases hd : isspace d = true
            · intro h; simp only [deref] at h; rw [h, isspace_NUL] at hd; exact absurd hd (by simp)
            · rw [List.dropWhile_cons_of_neg hd] at hl
              cases hl
              simpa [deref] using hN
        obtain ⟨m, mid', rfl⟩ : ∃ m mid', mid = m :: mid' := by
          cases mid with
          | nil => simp at hmid
          | cons m mid' => exact ⟨m, mid', rfl⟩
        have hlen₁ := length_dropWhile_le isspace line
        have hlen₂ := length_dropWhile_le wordChar rest
        rw [hl] at hlen₁
        simp only [List.length_cons] at hlen₁ hmid
        have hih := ih (rest.dropWhile wordChar) (pre ++ [Slot.str (c :: rest.takeWhile wordChar)])
          mid' post (by omega) (by omega)
        have hstr : strndup (c :: rest) ((c :: rest).length - (skipWord (c :: rest)).length)
            = c :: rest.takeWhile wordChar := by
          rw [strndup_eq, List.takeWhile_cons_of_pos hwc]
        have hskip : skipWord (c :: rest) = rest.dropWhile wordChar := by
          rw [skipWord_eq, List.dropWhile_cons_of_pos hwc]
        simp only [if_pos hline, skipSpace_eq, hl]
        rw [show deref (c :: rest) = c from rfl, if_neg hN, hstr, hskip]
        have hst := store_append pre (mid' ++ post) m (Slot.str (c :: rest.takeWhile wordChar))
        simp only [List.append_assoc, List.cons_append] at hst ⊢
        rw [hst]
        simp only [List.length_append, List.length_singleton, List.append_assoc,
          List.singleton_append, List.map_cons, List.cons_append, List.length_cons,
          List.length_nil, List.nil_append, Nat.zero_add] at hih ⊢
        rw [hih]
        simp only [Except.ok.injEq, Prod.mk.injEq, true_and]
        omega

theorem wordsOf_stop {l : List Char} (h : deref (l.dropWhile isspace) = NUL) :
    wordsOf l = [] := by
  cases hl : l.dropWhile isspace with
  | nil => exact wordsOf_of_nil hl
  | cons c rest =>
    rw [hl] at h
    have hN : c = NUL := h
    rw [wordsOf_of_cons hl, if_pos hN]

theorem wordsOf_step {l : List Char} (h : deref (l.dropWhile isspace) ≠ NUL) :
    wordsOf l = (l.dropWhile isspace).takeWhile wordChar ::
      wordsOf ((l.dropWhile isspace).dropWhile wordChar) := by
  cases hl : l.dropWhile isspace with
  | nil => rw [hl] at h; exact absurd rfl h
  | cons c rest =>
    rw [hl] at h
    have hN : c ≠ NUL := h
    have hs : isspace c = false := head_dropWhile_isspace hl
    have hwc : wordChar c = true := by simp [wordChar, hN, hs]
    rw [wordsOf_of_cons hl, if_neg hN, List.takeWhile_cons_of_pos hwc,
      List.dropWhile_cons_of_pos hwc]

/-- Where a `takeWhile`/`dropWhile` scan of a list stops, in terms of indices. -/
theorem scan_list (q : Char → Bool) (r : List Char) :
    ∃ d, d ≤ r.length ∧ r.dropWhile q = r.drop d ∧ r.takeWhile q = r.take d ∧
      (∀ k, k < d → q (r.getD k NUL) = true) ∧ (d < r.length → q (r.getD d NUL) = false) := by
  induction r with
  | nil => exact ⟨0, by simp⟩
  | cons c r ih =>
    by_cases hc : q c = true
    · obtain ⟨d, h₁, h₂, h₃, h₄, h₅⟩ := ih
      refine ⟨d + 1, by simpa using h₁, ?_, ?_, ?_, ?_⟩
      · rw [List.dropWhile_cons_of_pos hc, h₂]; rfl
      · rw [List.takeWhile_cons_of_pos hc, h₃]; rfl
      · intro k hk
        cases k with
        | zero => simpa using hc
        | succ k => simpa using h₄ k (by omega)
      · intro hd
        simpa using h₅ (by simpa using hd)
    · refine ⟨0, by simp, ?_, ?_, ?_, ?_⟩
      · rw [List.dropWhile_cons_of_neg hc]; rfl
      · rw [List.takeWhile_cons_of_neg hc]; rfl
      · intro k hk; omega
      · intro _; simpa using hc

theorem getD_drop (l : List Char) (p k : Nat) : (l.drop p).getD k NUL = l.getD (p + k) NUL := by
  simp [List.getElem?_drop]

/-- Where a scan that starts at index `p` of a line stops. -/
theorem scan_from (q : Char → Bool) (line : List Char) (p : Nat) (hp : p ≤ line.length) :
    ∃ p₁, p ≤ p₁ ∧ p₁ ≤ line.length ∧ (line.drop p).dropWhile q = line.drop p₁ ∧
      (line.drop p).takeWhile q = (line.drop p).take (p₁ - p) ∧
      (∀ k, p ≤ k → k < p₁ → q (line.getD k NUL) = true) ∧
      (p₁ < line.length → q (line.getD p₁ NUL) = false) := by
  obtain ⟨d, h₁, h₂, h₃, h₄, h₅⟩ := scan_list q (line.drop p)
  rw [List.length_drop] at h₁ h₅
  refine ⟨p + d, by omega, by omega, ?_, ?_, ?_, ?_⟩
  · rw [h₂, List.drop_drop]
  · rw [h₃]; congr 1; omega
  · intro k hk₁ hk₂
    have := h₄ (k - p) (by omega)
    rw [getD_drop] at this
    rwa [show p + (k - p) = k by omega] at this
  · intro hlt
    have := h₅ (by omega)
    rwa [getD_drop] at this

theorem getD_ne_NUL {line : List Char} (hN : ∀ c ∈ line, c ≠ NUL) {k : Nat}
    (hk : k < line.length) : line.getD k NUL ≠ NUL := by
  rw [List.getD_eq_getElem line NUL hk]
  exact hN _ (List.getElem_mem hk)

theorem deref_drop (line : List Char) (p : Nat) : deref (line.drop p) = line.getD p NUL := by
  by_cases hp : p < line.length
  · rw [List.drop_eq_getElem_cons hp, List.getD_eq_getElem line NUL hp]; rfl
  · rw [List.drop_eq_nil_of_le (by omega)]
    simp [deref, List.getElem?_eq_none (Nat.le_of_not_lt hp)]

theorem wordsOf_drop_spans (line : List Char) (hN : ∀ c ∈ line, c ≠ NUL) :
    ∀ (m p : Nat), line.length - p ≤ m → p ≤ line.length →
      (p = 0 ∨ isspace (line.getD (p - 1) NUL) = true ∨ isspace (line.getD p NUL) = true ∨
        p = line.length) →
      ∃ spans : List (Nat × Nat),
        wordsOf (line.drop p) = spans.map (substr line) ∧
        spans.Pairwise (fun s t => s.2 < t.1) ∧
        ∀ a b, (a, b) ∈ spans ↔ (p ≤ a ∧ IsMaxWord line a b) := by
  intro m
  induction m with
  | zero =>
    intro p hm hp _
    have hpn : p = line.length := by omega
    refine ⟨[], ?_, List.Pairwise.nil, ?_⟩
    · rw [List.drop_eq_nil_of_le (by omega), wordsOf_nil]; rfl
    · intro a b
      simp only [List.not_mem_nil, false_iff, not_and]
      intro ha hw
      have := hw.1; have := hw.2.1
      omega
  | succ m ih =>
    intro p hm hp hB
    obtain ⟨p₁, h₁, h₂, h₃, -, h₅, h₆⟩ := scan_from isspace line p hp
    by_cases hend : p₁ = line.length
    · refine ⟨[], ?_, List.Pairwise.nil, ?_⟩
      · rw [wordsOf_stop]; · rfl
        rw [h₃, hend, List.drop_eq_nil_of_le (Nat.le_refl _)]; rfl
      · intro a b
        simp only [List.not_mem_nil, false_iff, not_and]
        intro ha hw
        have hab := hw.1; have hbn := hw.2.1
        have h₇ := hw.2.2.1 a (Nat.le_refl _) hab
        rw [h₅ a ha (by omega)] at h₇
        exact absurd h₇ (by simp)
    · have hlt : p₁ < line.length := by omega
      have hs₁ : isspace (line.getD p₁ NUL) = false := h₆ hlt
      have hne : deref ((line.drop p).dropWhile isspace) ≠ NUL := by
        rw [h₃, deref_drop]; exact getD_ne_NUL hN hlt
      obtain ⟨q, g₁, g₂, g₃, g₄, g₅, g₆⟩ := scan_from wordChar line p₁ h₂
      have hwc : ∀ k, k < line.length →
          (wordChar (line.getD k NUL) = !isspace (line.getD k NUL)) := by
        intro k hk
        have := getD_ne_NUL hN hk
        generalize line.getD k NUL = c at this ⊢
        simp [wordChar, this]
      have hq : p₁ < q := by
        rcases Nat.lt_or_ge p₁ q with h | h
        · exact h
        · have hqp : q = p₁ := by omega
          have := g₆ (by omega)
          rw [hqp, hwc p₁ hlt, hs₁] at this
          exact absurd this (by simp)
      have hin : ∀ k, p₁ ≤ k → k < q → isspace (line.getD k NUL) = false := by
        intro k hk₁ hk₂
        have := g₅ k hk₁ hk₂
        rw [hwc k (by omega)] at this
        simpa using this
      have hqs : q = line.length ∨ isspace (line.getD q NUL) = true := by
        by_cases hqn : q = line.length
        · exact Or.inl hqn
        · right
          have := g₆ (by omega)
          rw [hwc q (by omega)] at this
          simpa using this
      obtain ⟨spans, e₁, e₂, e₃⟩ := ih q (by omega) g₂
        (by rcases hqs with h | h
            · exact Or.inr (Or.inr (Or.inr h))
            · exact Or.inr (Or.inr (Or.inl h)))
      have hfirst : ∀ s ∈ spans, q < s.1 := by
        intro s hs
        have hmem := (e₃ s.1 s.2).1 hs
        have hw := hmem.2
        have h₇ := hw.2.2.1 s.1 (Nat.le_refl _) hw.1
        rcases Nat.lt_or_ge q s.1 with h | h
        · exact h
        · have hsq : s.1 = q := by omega
          rcases hqs with h' | h'
          · have := hw.1; have := hw.2.1; omega
          · rw [hsq, h'] at h₇; exact absurd h₇ (by simp)
      refine ⟨(p₁, q) :: spans, ?_, ?_, ?_⟩
      · rw [wordsOf_step hne, h₃, g₃, g₄, e₁]; rfl
      · exact List.Pairwise.cons (fun s hs => hfirst s hs) e₂
      · intro a b
        rw [List.mem_cons, e₃]
        constructor
        · rintro (h | ⟨h, hw⟩)
          · cases h
            refine ⟨h₁, hq, g₂, hin, ?_, hqs⟩
            by_cases hpp : p = p₁
            · subst hpp
              rcases hB with h | h | h | h
              · exact Or.inl h
              · exact Or.inr h
              · rw [hs₁] at h; exact absurd h (by simp)
              · omega
            · right
              exact h₅ (p₁ - 1) (by omega) (by omega)
          · exact ⟨by omega, hw⟩
        · rintro ⟨ha, hw⟩
          obtain ⟨hab, hbn, w₁, w₂, w₃⟩ := hw
          have hap : p₁ ≤ a := by
            rcases Nat.lt_or_ge a p₁ with h | h
            · have := w₁ a (Nat.le_refl _) hab
              rw [h₅ a ha h] at this
              exact absurd this (by simp)
            · exact h
          rcases Nat.lt_or_ge a q with haq | haq
          · left
            have ha₁ : a = p₁ := by
              rcases Nat.lt_or_ge p₁ a with h | h
              · rcases w₂ with h' | h'
                · omega
                · rw [hin (a - 1) (by omega) (by omega)] at h'
                  exact absurd h' (by simp)
              · omega
            have hb₁ : b = q := by
              rcases Nat.lt_trichotomy b q with h | h | h
              · rcases w₃ with h' | h'
                · omega
                · rw [hin b (by omega) h] at h'
                  exact absurd h' (by simp)
              · exact h
              · have h₇ := w₁ q (by omega) h
                rcases hqs with h' | h'
                · omega
                · rw [h'] at h₇; exact absurd h₇ (by simp)
            rw [ha₁, hb₁]
          · right
            exact ⟨haq, hab, hbn, w₁, w₂, w₃⟩

theorem mem_maxWordSpans (line : List Char) (a b : Nat) :
    (a, b) ∈ maxWordSpans line ↔ IsMaxWord line a b := by
  unfold maxWordSpans
  simp only [List.mem_flatMap, List.mem_range, List.mem_map, List.mem_filter,
    decide_eq_true_eq, Prod.mk.injEq]
  constructor
  · rintro ⟨a', -, b', ⟨-, hw⟩, rfl, rfl⟩
    exact hw
  · intro hw
    have := hw.1; have := hw.2.1
    exact ⟨a, by omega, b, ⟨by omega, hw⟩, rfl, rfl⟩

theorem maxWordSpans_sorted (line : List Char) : (maxWordSpans line).Pairwise spanLt := by
  unfold maxWordSpans
  rw [List.pairwise_flatMap]
  constructor
  · intro a _
    rw [List.pairwise_map]
    refine List.Pairwise.imp ?_ ((List.pairwise_lt_range _).filter _)
    intro b b' h
    exact Or.inr ⟨rfl, h⟩
  · refine List.Pairwise.imp ?_ (List.pairwise_lt_range _)
    intro a a' h x hx y hy
    simp only [List.mem_map, List.mem_filter] at hx hy
    obtain ⟨_, _, rfl⟩ := hx
    obtain ⟨_, _, rfl⟩ := hy
    exact Or.inl h

theorem spans_unique {l₁ l₂ : List (Nat × Nat)} (h₁ : l₁.Pairwise spanLt)
    (h₂ : l₂.Pairwise spanLt) (h : ∀ x, x ∈ l₁ ↔ x ∈ l₂) : l₁ = l₂ := by
  haveI : IsAntisymm (Nat × Nat) spanLt :=
    ⟨fun s t hst hts => by unfold spanLt at hst hts; exfalso; omega⟩
  haveI : IsIrrefl (Nat × Nat) spanLt :=
    ⟨fun s hs => by unfold spanLt at hs; omega⟩
  exact List.eq_of_perm_of_sorted ((List.perm_ext_iff_of_nodup h₁.nodup h₂.nodup).2 h) h₁ h₂

/-- The words that the extraction loop cuts out of a line without NUL bytes are
its maximal non-empty substrings without white space, from left to right. -/
theorem wordsOf_eq_maxWords (line : List Char) (hN : ∀ c ∈ line, c ≠ NUL) :
    wordsOf line = maxWords line := by
  obtain ⟨spans, e₁, e₂, e₃⟩ :=
    wordsOf_drop_spans line hN line.length 0 (by omega) (by omega) (Or.inl rfl)
  have hs : spans = maxWordSpans line := by
    apply spans_unique _ (maxWordSpans_sorted line)
    · rintro ⟨a, b⟩
      rw [e₃, mem_maxWordSpans]
      simp
    · have hlt : ∀ s ∈ spans, s.1 < s.2 := by
        rintro ⟨a, b⟩ hs
        exact ((e₃ a b).1 hs).2.1
      clear e₁ e₃
      induction spans with
      | nil => exact List.Pairwise.nil
      | cons s spans ih =>
        rw [List.pairwise_cons] at e₂ ⊢
        refine ⟨?_, ih e₂.2 (fun t ht => hlt t (List.mem_cons_of_mem _ ht))⟩
        intro t ht
        have := hlt s (List.mem_cons_self _ _)
        have := e₂.1 t ht
        exact Or.inl (by omega)
  rw [List.drop_zero] at e₁
  rw [e₁, hs]; rfl

theorem argparseLoop_eq (line : List Char) :
    argparseLoop line =
      .ok ((wordsOf line).map Slot.str ++ [Slot.uninit], (wordsOf line).length) := by
  have h := extractLoop_eq (line.length + 1) line []
    (List.replicate (wordsOf line).length Slot.uninit) [Slot.uninit] (by omega) (by simp)
  unfold argparseLoop
  simp only [argCount_eq]
  have hr : List.replicate ((wordsOf line).length + 1) Slot.uninit
      = [] ++ List.replicate (wordsOf line).length Slot.uninit ++ [Slot.uninit] := by
    rw [List.replicate_succ']; simp
  rw [hr]
  simpa using h

theorem argparse_eq (line : List Char) :
    argparse line = .ok ((wordsOf line).map Slot.str ++ [Slot.null], (wordsOf line).length) := by
  unfold argparse
  rw [argparseLoop_eq]
  have h := store_append ((wordsOf line).map Slot.str) [] Slot.uninit Slot.null
  simp only [List.length_map] at h
  simp only [h, argCount_eq]

theorem wordsOf_wordChar : ∀ (n : Nat) (l : List Char), l.length ≤ n →
    ∀ t ∈ wordsOf l, t ≠ [] ∧ ∀ c ∈ t, wordChar c = true := by
  intro n
  induction n with
  | zero =>
    intro l hl t ht
    have : l = [] := List.length_eq_zero.mp (by omega)
    subst this
    rw [wordsOf_nil] at ht
    exact absurd ht (List.not_mem_nil _)
  | succ n ih =>
    intro l hl t ht
    cases hd : l.dropWhile isspace with
    | nil => rw [wordsOf_of_nil hd] at ht; exact absurd ht (List.not_mem_nil _)
    | cons c rest =>
      rw [wordsOf_of_cons hd] at ht
      by_cases hN : c = NUL
      · rw [if_pos hN] at ht; exact absurd ht (List.not_mem_nil _)
      · rw [if_neg hN, List.mem_cons] at ht
        have hs : isspace c = false := head_dropWhile_isspace hd
        have hwc : wordChar c = true := by simp [wordChar, hN, hs]
        rcases ht with rfl | ht
        · refine ⟨List.cons_ne_nil _ _, ?_⟩
          intro d hd'
          rcases List.mem_cons.mp hd' with rfl | hd'
          · exact hwc
          · exact List.mem_takeWhile_imp hd'
        · have h₁ := length_dropWhile_le isspace l
          have h₂ := length_dropWhile_le wordChar rest
          rw [hd] at h₁
          simp only [List.length_cons] at h₁
          exact ih _ (by omega) t ht

theorem wordsOf_append_word (t rest : List Char) (ht : t ≠ [])
    (hw : ∀ c ∈ t, wordChar c = true) (hr : wordChar (deref rest) = false) :
    wordsOf (t ++ rest) = t :: wordsOf rest := by
  cases t with
  | nil => exact absurd rfl ht
  | cons c t =>
    have hc : wordChar c = true := hw c (List.mem_cons_self _ _)
    have ht' : ∀ d ∈ t, wordChar d = true := fun d hd => hw d (List.mem_cons_of_mem _ hd)
    rw [List.cons_append, wordsOf_cons_word _ hc, List.takeWhile_append_of_pos ht',
      List.dropWhile_append_of_pos ht']
    cases rest with
    | nil => simp
    | cons d rest =>
      have hd : ¬ wordChar d = true := by
        have : wordChar d = false := hr
        simp [this]
      rw [List.takeWhile_cons_of_neg hd, List.dropWhile_cons_of_neg hd, List.append_nil]

theorem wordsOf_joinWords (toks : List (List Char))
    (h : ∀ t ∈ toks, t ≠ [] ∧ ∀ c ∈ t, wordChar c = true) :
    wordsOf (joinWords toks) = toks := by
  induction toks with
  | nil => simp [joinWords, wordsOf_nil, List.intercalate]
  | cons t toks ih =>
    have ht := h t (List.mem_cons_self _ _)
    have ih' := ih (fun u hu => h u (List.mem_cons_of_mem _ hu))
    cases toks with
    | nil =>
      have : joinWords [t] = t ++ [] := by simp [joinWords, List.intercalate]
      rw [this, wordsOf_append_word t [] ht.1 ht.2 (by decide), wordsOf_nil]
    | cons u toks =>
      have : joinWords (t :: u :: toks) = t ++ ' ' :: joinWords (u :: toks) := by
        simp [joinWords, List.intercalate]
      have hsp : wordChar (deref (' ' :: joinWords (u :: toks))) = false := by
        show wordChar ' ' = false
        decide
      rw [this, wordsOf_append_word t _ ht.1 ht.2 hsp,
        wordsOf_cons_space _ (by decide), ih']

theorem toNat_inj {a b : Char} (h : a.toNat = b.toNat) : a = b := by
  rw [← Char.ofNat_toNat a, ← Char.ofNat_toNat b, h]

theorem toNat_sub_eq_zero (a b : Char) : ((a.toNat : Int) - (b.toNat : Int) = 0) ↔ a = b := by
  constructor
  · intro h
    exact toNat_inj (by omega)
  · rintro rfl
    omega

theorem strcmp_eq_zero_iff : ∀ (a b : List Char), (∀ c ∈ a, c ≠ NUL) → (∀ c ∈ b, c ≠ NUL) →
    (strcmp a b = 0 ↔ a = b) := by
  intro a
  induction a with
  | nil =>
    intro b _ hb
    cases b with
    | nil => simp [strcmp, deref]
    | cons d b =>
      have hd : d ≠ NUL := hb d (List.mem_cons_self _ _)
      simp only [strcmp, deref, toNat_sub_eq_zero]
      constructor
      · intro h; exact absurd h.symm hd
      · intro h; cases h
  | cons c a ih =>
    intro b ha hb
    have hc : c ≠ NUL := ha c (List.mem_cons_self _ _)
    cases b with
    | nil =>
      simp only [strcmp, toNat_sub_eq_zero]
      constructor
      · intro h; exact absurd h hc
      · intro h; cases h
    | cons d b =>
      rw [strcmp]
      by_cases hcd : c = d
      · subst hcd
        simp only [ne_eq, not_true_eq_false, if_false, if_neg hc]
        rw [ih b (fun x hx => ha x (List.mem_cons_of_mem _ hx))
          (fun x hx => hb x (List.mem_cons_of_mem _ hx))]
        simp
      · simp only [ne_eq, hcd, not_false_eq_true, if_true, toNat_sub_eq_zero]
        simp [hcd]

theorem strcmp_name (a : List Char) (hN : ∀ c ∈ a, c ≠ NUL) (n : List Char)
    (hn : ∀ c ∈ n, c ≠ NUL) : (strcmp a n = 0) = (a = n) :=
  propext (strcmp_eq_zero_iff a n hN hn)

theorem builtIn_handler (h : Handler) (rest : List Slot) (argcp : Nat) :
    builtIn (.str h.name :: rest) argcp =
      ([.handler h (.str h.name :: rest) argcp], .returned 1) := by
  cases h <;> rfl

theorem builtIn_exit (rest : List Slot) (argcp : Nat) :
    builtIn (.str "exit".toList :: rest) argcp =
      ([], match exitProgram (.str "exit".toList :: rest) argcp with
        | .exited status => .exited status
        | .execed => .execed
        | .fault => .fault) := by
  have h : strcmp "exit".toList "exit".toList = 0 := by decide
  simp only [builtIn, List.head?, h, if_true]
  cases exitProgram (.str "exit".toList :: rest) argcp with
  | returned e => exact e.elim
  | exited status => rfl
  | execed => rfl
  | fault => rfl

theorem builtIn_other (a : List Char) (hN : ∀ c ∈ a, c ≠ NUL) (rest : List Slot) (argcp : Nat)
    (h : a ∉ builtinNames) : builtIn (.str a :: rest) argcp = ([], .returned 0) := by
  simp only [builtinNames, List.mem_cons, List.mem_singleton, List.not_mem_nil, or_false,
    not_or] at h
  obtain ⟨h₁, h₂, h₃, h₄, h₅, h₆, h₇, h₈, h₉⟩ := h
  simp only [builtIn, List.head?, strcmp_name a hN _ (by decide : ∀ c ∈ "exit".toList, c ≠ NUL),
    strcmp_name a hN _ (by decide : ∀ c ∈ "pwd".toList, c ≠ NUL),
    strcmp_name a hN _ (by decide : ∀ c ∈ "cd".toList, c ≠ NUL),
    strcmp_name a hN _ (by decide : ∀ c ∈ "ls".toList, c ≠ NUL),
    strcmp_name a hN _ (by decide : ∀ c ∈ "cp".toList, c ≠ NUL),
    strcmp_name a hN _ (by decide : ∀ c ∈ "env".toList, c ≠ NUL),
    strcmp_name a hN _ (by decide : ∀ c ∈ "stat".toList, c ≠ NUL),
    strcmp_name a hN _ (by decide : ∀ c ∈ "tail".toList, c ≠ NUL),
    strcmp_name a hN _ (by decide : ∀ c ∈ "touch".toList, c ≠ NUL),
    if_neg h₁, if_neg h₂, if_neg h₃, if_neg h₄, if_neg h₅, if_neg h₆, if_neg h₇, if_neg h₈,
    if_neg h₉]

theorem mem_builtinNames (a : List Char) :
    a ∈ builtinNames ↔ a = "exit".toList ∨ ∃ h : Handler, a = h.name := by
  constructor
  · intro h
    simp only [builtinNames, List.mem_cons, List.mem_singleton, List.not_mem_nil, or_false] at h
    rcases h with h | h | h | h | h | h | h | h | h
    · exact Or.inl h
    · exact Or.inr ⟨.pwd, h⟩
    · exact Or.inr ⟨.cd, h⟩
    · exact Or.inr ⟨.ls, h⟩
    · exact Or.inr ⟨.cp, h⟩
    · exact Or.inr ⟨.env, h⟩
    · exact Or.inr ⟨.stat_file, h⟩
    · exact Or.inr ⟨.tail, h⟩
    · exact Or.inr ⟨.touch, h⟩
  · rintro (rfl | ⟨h, rfl⟩)
    · decide
    · cases h <;> decide

theorem argparse_cons {line : List Char} {a : List Char} {rest : List Slot} {argcp : Nat}
    (h : argparse line = .ok (.str a :: rest, argcp)) :
    ∃ toks : List (List Char), wordsOf line = a :: toks ∧ rest = toks.map Slot.str ++ [Slot.null] ∧
      argcp = toks.length + 1 ∧ deref line ≠ NUL ∧ (∀ c ∈ a, c ≠ NUL) := by
  rw [argparse_eq] at h
  simp only [Except.ok.injEq, Prod.mk.injEq] at h
  obtain ⟨h₁, h₂⟩ := h
  cases hw : wordsOf line with
  | nil => rw [hw] at h₁; simp at h₁
  | cons t toks =>
    rw [hw] at h₁ h₂
    simp only [List.map_cons, List.cons_append, List.cons.injEq, Slot.str.injEq] at h₁
    obtain ⟨rfl, rfl⟩ := h₁
    refine ⟨toks, rfl, rfl, by simpa using h₂.symm, ?_, ?_⟩
    · intro hd
      have : wordsOf line = [] := by
        apply wordsOf_stop
        cases line with
        | nil => rfl
        | cons c l =>
          have hc : c = NUL := hd
          subst hc
          rw [List.dropWhile_cons_of_neg (by simp [isspace_NUL])]
          rfl
      rw [this] at hw
      cases hw
    · intro c hc
      have := (wordsOf_wordChar line.length line (Nat.le_refl _) t (by rw [hw]; simp)).2 c hc
      simp only [wordChar, Bool.and_eq_true, bne_iff_ne, ne_eq] at this
      exact this.1

theorem getinput_newline (line : List Char) :
    getinput (.line (line ++ ['\n'])) =
      ([.getline (.line (line ++ ['\n']))], .returned ((line.length : Int), line)) := by
  simp [getinput]

theorem main_line (line : List Char) (hne : line ≠ []) (cpid : Int) (execFails : Bool)
    (turns : List Turn) :
    main (⟨.line (line ++ ['\n']), cpid, execFails⟩ :: turns) =
      match processline line cpid execFails with
      | (ps, .returned _) =>
        (prompt :: [.getline (.line (line ++ ['\n']))] ++ ps ++ [.freeLine] ++ (main turns).1,
          (main turns).2)
      | (ps, .exited status) =>
        (prompt :: [.getline (.line (line ++ ['\n']))] ++ ps, .exited status)
      | (ps, .execed) => (prompt :: [.getline (.line (line ++ ['\n']))] ++ ps, .execed)
      | (ps, .fault) => (prompt :: [.getline (.line (line ++ ['\n']))] ++ ps, .fault) := by
  have hlen : 0 < line.length := List.length_pos.mpr hne
  have h₁ : ¬ ((line.length : Int) < 0) := by omega
  have h₂ : ¬ ((line.length : Int) = 0) := by omega
  rw [main]
  simp only [getinput_newline, if_neg h₁, if_neg h₂]

/-! ## The tokenizer -/

/-- C1: for every line without NUL bytes, `argparse` returns the maximal
non-empty substrings of the line that contain no white space, from left to
right, each in its own cell and followed by the `NULL` cell, and the count it
returns is their number; no token is empty and no token contains white space. -/
theorem argparse_tokens (line : List Char) (hN : ∀ c ∈ line, c ≠ NUL) :
    argparse line =
        .ok ((maxWords line).map Slot.str ++ [Slot.null], (maxWords line).length) ∧
      (∀ t ∈ maxWords line, t ≠ [] ∧ ∀ c ∈ t, isspace c = false) := by
  rw [← wordsOf_eq_maxWords line hN]
  refine ⟨argparse_eq line, ?_⟩
  intro t ht
  have h := wordsOf_wordChar line.length line (Nat.le_refl _) t ht
  refine ⟨h.1, ?_⟩
  intro c hc
  have := h.2 c hc
  simp only [wordChar, Bool.and_eq_true, Bool.not_eq_true'] at this
  exact this.2

theorem argparse_tokens_witness :
    (∀ c ∈ "  ls   -l  ".toList, c ≠ NUL) ∧
      argparse "  ls   -l  ".toList = .ok ([.str "ls".toList, .str "-l".toList, .null], 2) :=
  ⟨by decide, (argparse_tokens "  ls   -l  ".toList (by decide)).1.trans (by decide)⟩

/-- C2: for every line, the extraction loop of `argparse` runs to its end
inside the array and the final value of its index `i` is the count that the
pre-pass `argCount` computed. -/
theorem argCount_agrees_with_extraction (line : List Char) :
    ∃ args, argparseLoop line = .ok (args, argCount line) := by
  refine ⟨(wordsOf line).map Slot.str ++ [Slot.uninit], ?_⟩
  rw [argparseLoop_eq, argCount_eq]

/-- C7: for every line, `argparse` on the tokens of the line joined with single
spaces returns the same tokens and the same count as on the line itself. -/
theorem argparse_roundtrip (line : List Char) :
    ∃ toks : List (List Char),
      argparse line = .ok (toks.map Slot.str ++ [Slot.null], toks.length) ∧
      argparse (joinWords toks) = .ok (toks.map Slot.str ++ [Slot.null], toks.length) := by
  refine ⟨wordsOf line, argparse_eq line, ?_⟩
  have h := argparse_eq (joinWords (wordsOf line))
  rw [wordsOf_joinWords _ (wordsOf_wordChar line.length line (Nat.le_refl _))] at h
  exact h

/-! ## The dispatcher -/

/-- C5: for every argument vector whose first cell is a string, `builtIn`
returns 0 exactly when that string is none of the nine names; when it is the
name of one of the eight handlers other than `exit`, `builtIn` calls that
handler once, with the whole vector and the count, and returns 1; when it is
`exit`, `builtIn` does not return. -/
theorem builtIn_dispatch (a : List Char) (hN : ∀ c ∈ a, c ≠ NUL) (rest : List Slot)
    (argcp : Nat) :
    ((builtIn (.str a :: rest) argcp).2 = .returned 0 ↔ a ∉ builtinNames) ∧
      (∀ h : Handler, a = h.name →
        builtIn (.str a :: rest) argcp = ([.handler h (.str a :: rest) argcp], .returned 1)) ∧
      (a = "exit".toList → ∀ r, (builtIn (.str a :: rest) argcp).2 ≠ .returned r) := by
  refine ⟨⟨?_, ?_⟩, ?_, ?_⟩
  · intro h hmem
    rcases (mem_builtinNames a).1 hmem with rfl | ⟨n, rfl⟩
    · rw [builtIn_exit] at h
      revert h
      cases exitProgram (.str "exit".toList :: rest) argcp with
      | returned e => exact e.elim
      | exited status => simp
      | execed => simp
      | fault => simp
    · rw [builtIn_handler] at h
      simp at h
  · intro h
    rw [builtIn_other a hN rest argcp h]
  · rintro h rfl
    exact builtIn_handler h rest argcp
  · rintro rfl r
    rw [builtIn_exit]
    cases exitProgram (.str "exit".toList :: rest) argcp with
    | returned e => exact e.elim
    | exited status => simp
    | execed => simp
    | fault => simp

theorem builtIn_dispatch_witness :
    (∀ c ∈ "ls".toList, c ≠ NUL) ∧
      builtIn [.str "ls".toList, .str "-l".toList, .null] 2 =
        ([.handler .ls [.str "ls".toList, .str "-l".toList, .null] 2], .returned 1) :=
  ⟨by decide,
    (builtIn_dispatch "ls".toList (by decide) [.str "-l".toList, .null] 2).2.1 .ls rfl⟩

theorem exitProgram_eq (toks : List (List Char)) :
    exitProgram (.str "exit".toList :: (toks.map Slot.str ++ [Slot.null])) (toks.length + 1) =
      .exited (exitStatus (toks.map Slot.str ++ [Slot.null])) := by
  cases toks with
  | nil => rfl
  | cons t toks =>
    simp [exitProgram, exitStatus]

theorem processline_exit {line : List Char} {rest : List Slot} {argcp : Nat}
    (h : argparse line = .ok (.str "exit".toList :: rest, argcp)) (cpid : Int)
    (execFails : Bool) :
    builtIn (.str "exit".toList :: rest) argcp = ([], .exited (exitStatus rest)) ∧
      processline line cpid execFails = ([], .exited (exitStatus rest)) := by
  obtain ⟨toks, -, rfl, rfl, hd, -⟩ := argparse_cons h
  have hb : builtIn (.str "exit".toList :: (toks.map Slot.str ++ [Slot.null])) (toks.length + 1)
      = ([], .exited (exitStatus (toks.map Slot.str ++ [Slot.null]))) := by
    rw [builtIn_exit, exitProgram_eq]
  refine ⟨hb, ?_⟩
  simp only [processline, if_neg hd, h, hb]

theorem processline_handler {line : List Char} {h : Handler} {rest : List Slot} {argcp : Nat}
    (ha : argparse line = .ok (.str h.name :: rest, argcp)) (cpid : Int) (execFails : Bool) :
    processline line cpid execFails =
      ([.handler h (.str h.name :: rest) argcp] ++
        (freeLoop (.str h.name :: rest) argcp 0 ++ [.freeArgs]), .returned ()) := by
  obtain ⟨toks, -, -, -, hd, -⟩ := argparse_cons ha
  simp only [processline, if_neg hd, ha, builtIn_handler]
  simp

theorem processline_other {line a : List Char} {rest : List Slot} {argcp : Nat}
    (ha : argparse line = .ok (.str a :: rest, argcp)) (hn : a ∉ builtinNames) (cpid : Int)
    (execFails : Bool) :
    processline line cpid execFails =
      if cpid < 0 then ([.fork cpid, .perror "fork"], .exited EXIT_FAILURE)
      else if cpid = 0 then
        if execFails then
          ([.fork cpid, .execvp (.str a) (.str a :: rest), .perror "execvp"],
            .exited EXIT_FAILURE)
        else ([.fork cpid, .execvp (.str a) (.str a :: rest)], .execed)
      else
        ([.fork cpid, .waitpid cpid] ++ (freeLoop (.str a :: rest) argcp 0 ++ [.freeArgs]),
          .returned ()) := by
  obtain ⟨toks, -, -, -, hd, hN⟩ := argparse_cons ha
  simp only [processline, if_neg hd, ha, builtIn_other a hN rest argcp hn]
  simp

theorem digitChar_facts (d : Nat) (hd : d < 10) :
    ('0' ≤ digitChar d ∧ digitChar d ≤ '9') ∧ (digitChar d).toNat - '0'.toNat = d ∧
      isspace (digitChar d) = false ∧ (digitChar d == '-') = false ∧
      (digitChar d == '+') = false := by
  interval_cases d <;> decide

theorem strtolDigits_decimal (ds : List Nat) (h : ∀ d ∈ ds, d < 10) : ∀ acc : Nat,
    strtolDigits (ds.map digitChar) acc = acc * 10 ^ ds.length + Nat.ofDigits 10 ds.reverse := by
  induction ds with
  | nil => intro acc; simp [strtolDigits]
  | cons d ds ih =>
    intro acc
    have hd := digitChar_facts d (h d (List.mem_cons_self _ _))
    rw [List.map_cons, strtolDigits, if_pos hd.1, hd.2.1,
      ih (fun e he => h e (List.mem_cons_of_mem _ he)), List.reverse_cons, Nat.ofDigits_append,
      Nat.ofDigits_singleton, List.length_reverse, List.length_cons]
    ring

/-- On the decimal numeral of a number below `2^31`, `atoi` returns that
number. -/
theorem atoi_decimal (ds : List Nat) (h : ∀ d ∈ ds, d < 10)
    (hv : Nat.ofDigits 10 ds.reverse < 2 ^ 31) :
    atoi (ds.map digitChar) = (Nat.ofDigits 10 ds.reverse : Nat) := by
  have hval : strtol (ds.map digitChar) = (Nat.ofDigits 10 ds.reverse : Nat) := by
    cases ds with
    | nil => decide
    | cons d ds =>
      have hd := digitChar_facts d (h d (List.mem_cons_self _ _))
      have hs : skipSpace ((d :: ds).map digitChar) = (d :: ds).map digitChar := by
        rw [List.map_cons, skipSpace, hd.2.2.1]; rfl
      have hdr : deref ((d :: ds).map digitChar) = digitChar d := rfl
      have hdig := strtolDigits_decimal (d :: ds) h 0
      simp only [strtol, hs, hdr, hd.2.2.2.1, hd.2.2.2.2, Bool.or_self, Bool.false_eq_true,
        if_false, hdig, Nat.zero_mul, Nat.zero_add]
      omega
  unfold atoi
  rw [hval]
  omega

/-- C6: for every line whose first token is `exit`, the built-in does not
return: `builtIn`, `processline` and the read loop all end in `exit(status)`,
and the read loop writes nothing after the line has been read, whatever input
follows.  The status is 0 when there is no second token and `atoi` of the
second token otherwise, which for the decimal numeral of a number below `2^31`
is that number. -/
theorem exit_terminates (line : List Char) (rest : List Slot) (argcp : Nat)
    (h : argparse line = .ok (.str "exit".toList :: rest, argcp)) (cpid : Int)
    (execFails : Bool) (turns : List Turn) :
    builtIn (.str "exit".toList :: rest) argcp = ([], .exited (exitStatus rest)) ∧
      processline line cpid execFails = ([], .exited (exitStatus rest)) ∧
      main (⟨.line (line ++ ['\n']), cpid, execFails⟩ :: turns) =
        ([prompt, .getline (.line (line ++ ['\n']))], .exited (exitStatus rest)) ∧
      (argcp = 1 → exitStatus rest = 0) ∧
      (1 < argcp → ∃ s more, rest = .str s :: more ∧ exitStatus rest = atoi s) ∧
      (∀ (ds : List Nat) (more : List Slot), rest = .str (ds.map digitChar) :: more →
        (∀ d ∈ ds, d < 10) → Nat.ofDigits 10 ds.reverse < 2 ^ 31 →
        exitStatus rest = (Nat.ofDigits 10 ds.reverse : Nat)) := by
  obtain ⟨hb, hp⟩ := processline_exit h cpid execFails
  obtain ⟨toks, -, hrest, hargcp, hd, -⟩ := argparse_cons h
  have hne : line ≠ [] := by
    rintro rfl
    exact hd rfl
  refine ⟨hb, hp, ?_, ?_, ?_, ?_⟩
  · rw [main_line line hne, hp]
    rfl
  · intro h₁
    have : toks = [] := List.length_eq_zero.mp (by omega)
    rw [hrest, this]
    rfl
  · intro h₁
    cases toks with
    | nil => simp at hargcp; omega
    | cons t toks => exact ⟨t, toks.map Slot.str ++ [Slot.null], hrest, by rw [hrest]; rfl⟩
  · rintro ds more rfl hds hv
    exact atoi_decimal ds hds hv

theorem exit_terminates_witness :
    argparse "exit 7".toList = .ok ([.str "exit".toList, .str "7".toList, .null], 2) ∧
      main [⟨.line "exit 7\n".toList, 0, false⟩, ⟨.line "pwd\n".toList, 0, false⟩] =
        ([prompt, .getline (.line "exit 7\n".toList)], .exited 7) :=
  ⟨by decide,
    (exit_terminates "exit 7".toList [.str "7".toList, .null] 2 (by decide) 0 false
      [⟨.line "pwd\n".toList, 0, false⟩]).2.2.1⟩

theorem freeLoop_kind (args : List Slot) (n i : Nat) :
    ∀ e ∈ freeLoop args n i, ∃ j p, e = Event.freeArg j p := by
  intro e he
  unfold freeLoop at he
  obtain ⟨j, -, rfl⟩ := List.mem_map.mp he
  exact ⟨_, _, rfl⟩

theorem forkCalls_freeLoop (args : List Slot) (n i : Nat) : forkCalls (freeLoop args n i) = [] := by
  unfold forkCalls
  rw [List.filterMap_eq_nil_iff]
  intro e he
  obtain ⟨j, p, rfl⟩ := freeLoop_kind args n i e he
  rfl

theorem waitCalls_freeLoop (args : List Slot) (n i : Nat) : waitCalls (freeLoop args n i) = [] := by
  unfold waitCalls
  rw [List.filterMap_eq_nil_iff]
  intro e he
  obtain ⟨j, p, rfl⟩ := freeLoop_kind args n i e he
  rfl

theorem handlerCalls_freeLoop (args : List Slot) (n i : Nat) :
    handlerCalls (freeLoop args n i) = [] := by
  unfold handlerCalls
  rw [List.filterMap_eq_nil_iff]
  intro e he
  obtain ⟨j, p, rfl⟩ := freeLoop_kind args n i e he
  rfl

theorem forkCalls_append (es fs : List Event) :
    forkCalls (es ++ fs) = forkCalls es ++ forkCalls fs := by
  simp [forkCalls, List.filterMap_append]

theorem waitCalls_append (es fs : List Event) :
    waitCalls (es ++ fs) = waitCalls es ++ waitCalls fs := by
  simp [waitCalls, List.filterMap_append]

theorem handlerCalls_append (es fs : List Event) :
    handlerCalls (es ++ fs) = handlerCalls es ++ handlerCalls fs := by
  simp [handlerCalls, List.filterMap_append]

/-! ## The launcher -/

/-- C4: for every line that gives a non-empty argument vector: when the first
token is one of the built-in names, `processline` calls no `fork` and no
`waitpid`, and it runs the handler of that name (for `exit` the process ends
there); when the first token is no built-in name, `processline` calls no
handler and calls `fork` exactly once, and if `fork` returns a child's process
id it then calls `waitpid` exactly once, on that process id, and returns. -/
theorem processline_dispatch (line a : List Char) (rest : List Slot) (argcp : Nat)
    (h : argparse line = .ok (.str a :: rest, argcp)) (cpid : Int) (execFails : Bool) :
    (a ∈ builtinNames →
        forkCalls (processline line cpid execFails).1 = [] ∧
        waitCalls (processline line cpid execFails).1 = [] ∧
        (a = "exit".toList → ∃ status, processline line cpid execFails = ([], .exited status)) ∧
        (∀ n : Handler, a = n.name →
          handlerCalls (processline line cpid execFails).1 = [(n, .str a :: rest, argcp)] ∧
          (processline line cpid execFails).2 = .returned ())) ∧
      (a ∉ builtinNames →
        handlerCalls (processline line cpid execFails).1 = [] ∧
        forkCalls (processline line cpid execFails).1 = [cpid] ∧
        (0 < cpid →
          waitCalls (processline line cpid execFails).1 = [cpid] ∧
          (processline line cpid execFails).2 = .returned () ∧
          ∃ es, (processline line cpid execFails).1 = .fork cpid :: .waitpid cpid :: es) ∧
        (cpid ≤ 0 →
          waitCalls (processline line cpid execFails).1 = [] ∧
          (processline line cpid execFails).2 ≠ .returned ())) := by
  constructor
  · intro hmem
    rcases (mem_builtinNames a).1 hmem with rfl | ⟨n, rfl⟩
    · rw [(processline_exit h cpid execFails).2]
      refine ⟨rfl, rfl, fun _ => ⟨_, rfl⟩, ?_⟩
      intro n hn
      cases n <;> exact absurd hn (by decide)
    · rw [processline_handler h cpid execFails]
      refine ⟨?_, ?_, ?_, ?_⟩
      · rw [forkCalls_append, forkCalls_append, forkCalls_freeLoop]; rfl
      · rw [waitCalls_append, waitCalls_append, waitCalls_freeLoop]; rfl
      · intro hn; cases n <;> exact absurd hn (by decide)
      · intro m hm
        have : n = m := by cases n <;> cases m <;> first | rfl | exact absurd hm (by decide)
        subst this
        rw [handlerCalls_append, handlerCalls_append, handlerCalls_freeLoop]
        exact ⟨rfl, rfl⟩
  · intro hn
    rw [processline_other h hn cpid execFails]
    by_cases h₁ : cpid < 0
    · rw [if_pos h₁]
      refine ⟨rfl, rfl, fun h => by omega, fun _ => ⟨rfl, by simp⟩⟩
    · rw [if_neg h₁]
      by_cases h₂ : cpid = 0
      · rw [if_pos h₂]
        cases execFails
        · exact ⟨rfl, rfl, fun h => by omega, fun _ => ⟨rfl, by simp⟩⟩
        · exact ⟨rfl, rfl, fun h => by omega, fun _ => ⟨rfl, by simp⟩⟩
      · rw [if_neg h₂]
        refine ⟨?_, ?_, fun _ => ⟨?_, rfl, ⟨_, rfl⟩⟩, fun h => by omega⟩
        · rw [handlerCalls_append, handlerCalls_append, handlerCalls_freeLoop]; rfl
        · rw [forkCalls_append, forkCalls_append, forkCalls_freeLoop]; rfl
        · rw [waitCalls_append, waitCalls_append, waitCalls_freeLoop]; rfl

theorem processline_dispatch_witness :
    argparse "make all".toList = .ok ([.str "make".toList, .str "all".toList, .null], 2) ∧
      forkCalls (processline "make all".toList 42 false).1 = [42] ∧
      waitCalls (processline "make all".toList 42 false).1 = [42] :=
  have h := (processline_dispatch "make all".toList "make".toList [.str "all".toList, .null] 2
    (by decide) 42 false).2 (by decide)
  ⟨by decide, h.2.1, (h.2.2.1 (by decide)).1⟩

theorem execvp_not_mem_cleanup (args : List Slot) (n : Nat) (file : Slot) (argv : List Slot) :
    Event.execvp file argv ∉ freeLoop args n 0 ++ [Event.freeArgs] := by
  intro hmem
  rcases List.mem_append.mp hmem with h | h
  · obtain ⟨j, p, hj⟩ := freeLoop_kind args n 0 _ h
    cases hj
  · simp at h

/-- C10: for every line, `argparse` finishes without a store outside the
`count + 1` cells it allocated; the array it returns has the tokens in the
cells `0 .. count - 1` and `NULL` in the cell `count`, and this array is the
vector that `processline` passes to `execvp`. -/
theorem argparse_vector (line : List Char) :
    ∃ toks : List (List Char),
      argparse line = .ok (toks.map Slot.str ++ [Slot.null], argCount line) ∧
      toks.length = argCount line ∧
      ∀ (cpid : Int) (execFails : Bool) (file : Slot) (argv : List Slot),
        Event.execvp file argv ∈ (processline line cpid execFails).1 →
          argv = toks.map Slot.str ++ [Slot.null] := by
  refine ⟨wordsOf line, ?_, (argCount_eq line).symm, ?_⟩
  · rw [argparse_eq, argCount_eq]
  · intro cpid execFails file argv hmem
    by_cases hd : deref line = NUL
    · simp [processline, hd] at hmem
    · cases hw : wordsOf line with
      | nil =>
        have ha : argparse line = .ok ([Slot.null], 0) := by rw [argparse_eq, hw]; rfl
        have hb : builtIn [Slot.null] 0 = ([], .fault) := rfl
        simp [processline, hd, ha, hb] at hmem
      | cons a toks =>
        have ha : argparse line =
            .ok (.str a :: (toks.map Slot.str ++ [Slot.null]), toks.length + 1) := by
          rw [argparse_eq, hw]; rfl
        by_cases hn : a ∈ builtinNames
        · rcases (mem_builtinNames a).1 hn with rfl | ⟨n, rfl⟩
          · rw [(processline_exit ha cpid execFails).2] at hmem
            simp at hmem
          · rw [processline_handler ha cpid execFails] at hmem
            rcases List.mem_append.mp hmem with h | h
            · simp at h
            · exact absurd h (execvp_not_mem_cleanup _ _ _ _)
        · rw [processline_other ha hn cpid execFails] at hmem
          by_cases h₁ : cpid < 0
          · rw [if_pos h₁] at hmem; simp at hmem
          · rw [if_neg h₁] at hmem
            by_cases h₂ : cpid = 0
            · rw [if_pos h₂] at hmem
              cases execFails <;> simp at hmem <;> simp [hmem.2]
            · rw [if_neg h₂] at hmem
              rcases List.mem_append.mp hmem with h | h
              · simp at h
              · exact absurd h (execvp_not_mem_cleanup _ _ _ _)

/-- C3: on the line that consists of one space `argparse` returns the count 0
and an array whose first cell is `NULL`; `processline` nevertheless calls
`builtIn`, which reads `args[0]`, and the read loop reaches that call on the
input line `" \n"`. -/
theorem processline_blank_line :
    argparse " ".toList = .ok ([.null], 0) ∧
      builtIn [.null] 0 = ([], .fault) ∧
      processline " ".toList 0 false = ([], .fault) ∧
      main [⟨.line " \n".toList, 0, false⟩] =
        ([prompt, .getline (.line " \n".toList)], .fault) := by
  decide

theorem processline_trace (line : List Char) (cpid : Int) (execFails : Bool) :
    (processline line cpid execFails).1 = [] ∨
      ∃ a rest argcp, argparse line = .ok (.str a :: rest, argcp) := by
  by_cases hd : deref line = NUL
  · left; simp [processline, hd]
  · cases hw : wordsOf line with
    | nil =>
      left
      have ha : argparse line = .ok ([Slot.null], 0) := by rw [argparse_eq, hw]; rfl
      have hb : builtIn [Slot.null] 0 = ([], .fault) := rfl
      simp [processline, hd, ha, hb]
    | cons a toks =>
      right
      exact ⟨a, toks.map Slot.str ++ [Slot.null], toks.length + 1, by rw [argparse_eq, hw]; rfl⟩

theorem isLoopAct_cleanup (args : List Slot) (n : Nat) :
    ∀ e ∈ freeLoop args n 0 ++ [Event.freeArgs], isLoopAct e = false := by
  intro e he
  rcases List.mem_append.mp he with h | h
  · obtain ⟨j, p, rfl⟩ := freeLoop_kind args n 0 _ h
    rfl
  · simp at h
    subst h
    rfl

theorem processline_no_loopAct (line : List Char) (cpid : Int) (execFails : Bool) :
    ∀ e ∈ (processline line cpid execFails).1, isLoopAct e = false := by
  intro e he
  rcases processline_trace line cpid execFails with h | ⟨a, rest, argcp, ha⟩
  · rw [h] at he; exact absurd he (List.not_mem_nil _)
  · by_cases hn : a ∈ builtinNames
    · rcases (mem_builtinNames a).1 hn with rfl | ⟨n, rfl⟩
      · rw [(processline_exit ha cpid execFails).2] at he
        exact absurd he (List.not_mem_nil _)
      · rw [processline_handler ha cpid execFails] at he
        rcases List.mem_append.mp he with h | h
        · simp at h; subst h; rfl
        · exact isLoopAct_cleanup _ _ e h
    · rw [processline_other ha hn cpid execFails] at he
      by_cases h₁ : cpid < 0
      · rw [if_pos h₁] at he
        simp at he
        rcases he with rfl | rfl <;> rfl
      · rw [if_neg h₁] at he
        by_cases h₂ : cpid = 0
        · rw [if_pos h₂] at he
          cases execFails <;> simp at he
          · rcases he with rfl | rfl <;> rfl
          · rcases he with rfl | rfl | rfl <;> rfl
        · rw [if_neg h₂] at he
          rcases List.mem_append.mp he with h | h
          · simp at h
            rcases h with rfl | rfl <;> rfl
          · exact isLoopAct_cleanup _ _ e h

theorem getinput_line (bytes : List Char) :
    getinput (.line bytes) = ([.getline (.line bytes)], .fault) ∨
      ∃ (len : Int) (line : List Char), 0 ≤ len ∧
        getinput (.line bytes) = ([.getline (.line bytes)], .returned (len, line)) := by
  cases h : bytes.getLast? with
  | none => left; simp only [getinput, h]
  | some c =>
    right
    have hne : bytes ≠ [] := by
      rintro rfl
      simp at h
    have hlen : 0 < bytes.length := List.length_pos.mpr hne
    by_cases hc : c = '\n'
    · exact ⟨(bytes.length : Int) - 1, bytes.dropLast, by omega, by simp only [getinput, h, hc, if_true]⟩
    · exact ⟨(bytes.length : Int), bytes, by omega, by simp only [getinput, h, if_neg hc]⟩

theorem linesRead_append (es fs : List Event) :
    linesRead (es ++ fs) = linesRead es + linesRead fs := by
  simp [linesRead, List.countP_append]

theorem promptCount_append (es fs : List Event) :
    promptCount (es ++ fs) = promptCount es + promptCount fs := by
  simp [promptCount, List.countP_append]

theorem linesRead_of_no_loopAct {es : List Event} (h : ∀ e ∈ es, isLoopAct e = false) :
    linesRead es = 0 := by
  unfold linesRead
  rw [List.countP_eq_zero]
  intro e he
  have := h e he
  cases e <;> simp_all [isLoopAct]

theorem promptCount_of_no_loopAct {es : List Event} (h : ∀ e ∈ es, isLoopAct e = false) :
    promptCount es = 0 := by
  unfold promptCount
  rw [List.countP_eq_zero]
  intro e he
  have := h e he
  cases e <;> simp_all [isLoopAct, prompt]

/-! ## The read loop -/

theorem main_trace_at_eof (turns : List Turn)
    (hl : ∀ t ∈ turns, ∃ bytes, t.input = .line bytes)
    (he : Event.getline .eof ∈ (main turns).1) :
    (main turns).2 = .exited EXIT_SUCCESS ∧ linesRead (main turns).1 = turns.length ∧
      promptCount (main turns).1 = turns.length + 1 ∧
      ∃ es, (main turns).1 = es ++ [prompt, .getline .eof] := by
  induction turns with
  | nil => exact ⟨rfl, rfl, rfl, [], rfl⟩
  | cons t turns ih =>
    obtain ⟨bytes, hb⟩ := hl t (List.mem_cons_self _ _)
    have ih' := ih (fun u hu => hl u (List.mem_cons_of_mem _ hu))
    rw [main] at he ⊢
    rw [hb] at he ⊢
    rcases getinput_line bytes with hg | ⟨len, line, hlen, hg⟩
    · rw [hg] at he
      simp [prompt] at he
    · rw [hg] at he ⊢
      simp only [] at he ⊢
      have h₁ : ¬ len < 0 := by omega
      rw [if_neg h₁] at he ⊢
      by_cases h₂ : len = 0
      · rw [if_pos h₂] at he ⊢
        simp only [] at he ⊢
        have he' : Event.getline .eof ∈ (main turns).1 := by
          rcases List.mem_append.mp he with h | h
          · simp [prompt] at h
          · exact h
        obtain ⟨i₁, i₂, i₃, es, i₄⟩ := ih' he'
        refine ⟨i₁, ?_, ?_, ⟨[prompt, .getline (.line bytes)] ++ es, ?_⟩⟩
        · rw [linesRead_append, i₂, List.length_cons]
          have : linesRead [prompt, .getline (.line bytes)] = 1 := rfl
          omega
        · rw [promptCount_append, i₃, List.length_cons]
          have : promptCount [prompt, .getline (.line bytes)] = 1 := rfl
          omega
        · rw [i₄, List.append_assoc]
      · rw [if_neg h₂] at he ⊢
        have hps := processline_no_loopAct line t.cpid t.execFails
        rcases hp : processline line t.cpid t.execFails with ⟨ps, o⟩
        rw [hp] at he hps
        simp only [] at hps
        have hnot : Event.getline .eof ∉ [prompt, .getline (.line bytes)] ++ ps := by
          intro h
          rcases List.mem_append.mp h with h | h
          · simp [prompt] at h
          · have := hps _ h
            simp [isLoopAct] at this
        cases o with
        | returned u =>
          simp only [] at he ⊢
          have he' : Event.getline .eof ∈ (main turns).1 := by
            rcases List.mem_append.mp he with h | h
            · rcases List.mem_append.mp h with h | h
              · exact absurd h hnot
              · simp at h
            · exact h
          obtain ⟨i₁, i₂, i₃, es, i₄⟩ := ih' he'
          refine ⟨i₁, ?_, ?_, ⟨[prompt, .getline (.line bytes)] ++ ps ++ [.freeLine] ++ es, ?_⟩⟩
          · rw [linesRead_append, linesRead_append, linesRead_append, i₂, List.length_cons,
              linesRead_of_no_loopAct hps]
            have : linesRead [prompt, .getline (.line bytes)] = 1 := rfl
            have : linesRead [Event.freeLine] = 0 := rfl
            omega
          · rw [promptCount_append, promptCount_append, promptCount_append, i₃, List.length_cons,
              promptCount_of_no_loopAct hps]
            have : promptCount [prompt, .getline (.line bytes)] = 1 := rfl
            have : promptCount [Event.freeLine] = 0 := rfl
            omega
          · rw [i₄]; simp only [List.append_assoc]
        | exited status => exact absurd he hnot
        | execed => exact absurd he hnot
        | fault => exact absurd he hnot

theorem processline_child_execs (line : List Char)
    (h : Event.fork 0 ∈ (processline line 0 false).1) :
    (processline line 0 false).2 = .execed := by
  rcases processline_trace line 0 false with h₀ | ⟨a, rest, argcp, ha⟩
  · rw [h₀] at h; exact absurd h (List.not_mem_nil _)
  · by_cases hn : a ∈ builtinNames
    · rcases (mem_builtinNames a).1 hn with rfl | ⟨n, rfl⟩
      · rw [(processline_exit ha 0 false).2] at h
        exact absurd h (List.not_mem_nil _)
      · rw [processline_handler ha 0 false] at h
        rcases List.mem_append.mp h with h | h
        · simp at h
        · rcases List.mem_append.mp h with h | h
          · obtain ⟨j, p, hj⟩ := freeLoop_kind _ _ _ _ h
            cases hj
          · simp at h
    · rw [processline_other ha hn 0 false]
      rfl

/-- C8 (amended): for every finite sequence of input lines followed by
end-of-input in which no `execvp` of a forked child fails, when the read loop
reaches end-of-input the shell ends in `exit(EXIT_SUCCESS)` and every line has
been read; it has printed the prompt once before each call of `getline`, the
call that detects end-of-input included, so the number of prompts it has
printed is the number of lines read plus one; it prints nothing after
end-of-input has been detected; and every child it forks goes on in the
program that `execvp` starts, so that no child leaves through `exit` with a
copy of the buffered prompts.  Runs in which the `execvp` of a child fails are
left out. -/
theorem main_prompts_at_eof (turns : List Turn)
    (hl : ∀ t ∈ turns, ∃ bytes, t.input = .line bytes)
    (hx : ∀ t ∈ turns, t.execFails = false)
    (he : Event.getline .eof ∈ (main turns).1) :
    (main turns).2 = .exited EXIT_SUCCESS ∧ linesRead (main turns).1 = turns.length ∧
      promptCount (main turns).1 = linesRead (main turns).1 + 1 ∧
      (∃ es, (main turns).1 = es ++ [prompt, .getline .eof]) ∧
      ∀ t ∈ turns, ∀ line, Event.fork 0 ∈ (processline line 0 t.execFails).1 →
        (processline line 0 t.execFails).2 = .execed := by
  obtain ⟨h₁, h₂, h₃, h₄⟩ := main_trace_at_eof turns hl he
  refine ⟨h₁, h₂, by rw [h₃, h₂], h₄, ?_⟩
  intro t ht line hf
  rw [hx t ht] at hf ⊢
  exact processline_child_execs line hf

theorem main_prompts_at_eof_witness :
    (main [⟨.line "pwd\n".toList, 0, false⟩, ⟨.line "make all\n".toList, 42, false⟩]).2 =
        .exited EXIT_SUCCESS ∧
      promptCount
        (main [⟨.line "pwd\n".toList, 0, false⟩, ⟨.line "make all\n".toList, 42, false⟩]).1 = 3 :=
  have h := main_prompts_at_eof
    [⟨.line "pwd\n".toList, 0, false⟩, ⟨.line "make all\n".toList, 42, false⟩]
    (by intro t ht; simp only [List.mem_cons, List.mem_singleton, List.not_mem_nil,
          or_false] at ht
        rcases ht with rfl | rfl <;> exact ⟨_, rfl⟩)
    (by intro t ht; simp only [List.mem_cons, List.mem_singleton, List.not_mem_nil,
          or_false] at ht
        rcases ht with rfl | rfl <;> rfl)
    (by decide)
  ⟨h.1, h.2.2.1.trans (by rw [h.2.1]; rfl)⟩

/-- C8 (as stated, refuted): on the input that consists of the one line `pwd`
the read loop reaches end-of-input and exits with status 0, one line has been
read and no child has been forked, and two prompts have been printed: the
second one precedes the call of `getline` that detects end-of-input. -/
theorem main_prompt_before_eof :
    main [⟨.line "pwd\n".toList, 0, false⟩] =
        ([prompt, .getline (.line "pwd\n".toList), .handler .pwd [.str "pwd".toList, .null] 1,
          .freeArg 0 (.str "pwd".toList), .freeArgs, .freeLine, prompt, .getline .eof],
          .exited EXIT_SUCCESS) ∧
      linesRead (main [⟨.line "pwd\n".toList, 0, false⟩]).1 = 1 ∧
      promptCount (main [⟨.line "pwd\n".toList, 0, false⟩]).1 = 2 ∧
      promptCount (main [⟨.line "pwd\n".toList, 0, false⟩]).1 ≠
        linesRead (main [⟨.line "pwd\n".toList, 0, false⟩]).1 := by
  decide

/-! ## The `cp` handler -/

/-- C9: in every file system in which the source and the destination argument
of `cp` resolve to the same file, `cp` looks at the two paths with `stat`,
writes the error message to standard error and returns: it opens no file,
writes to no file, and leaves the file system as it was. -/
theorem cp_same_file (fs : FileSys) (args : List Slot) (srcPath destPath : List Char)
    (f : Nat × Nat) (h₁ : args.get? 1 = some (.str srcPath))
    (h₂ : args.get? 2 = some (.str destPath)) (hs : fs.lookup srcPath = some f)
    (hd : fs.lookup destPath = some f) :
    cp fs args 3 =
      some (fs, [.stat srcPath, .stat destPath,
        .stderr ("cp: \x27" ++ text srcPath ++ "\x27 and \x27" ++ text destPath ++
          "\x27 are the same file\n")]) := by
  simp only [cp, h₁, h₂, hs, hd, ne_eq, not_true_eq_false, if_false, if_true]

theorem cp_same_file_witness :
    cp ⟨fun p => if p = "a.txt".toList then some (0, 7) else none, fun _ => "data".toList,
        fun _ => true, fun p => if p = "a.txt".toList then some (0, 7) else none⟩
        [.str "cp".toList, .str "a.txt".toList, .str "a.txt".toList, .null] 3 =
      some (⟨fun p => if p = "a.txt".toList then some (0, 7) else none, fun _ => "data".toList,
        fun _ => true, fun p => if p = "a.txt".toList then some (0, 7) else none⟩,
        [.stat "a.txt".toList, .stat "a.txt".toList,
          .stderr "cp: \x27a.txt\x27 and \x27a.txt\x27 are the same file\n"]) :=
  cp_same_file _ _ "a.txt".toList "a.txt".toList (0, 7) rfl rfl rfl rfl

/-! ## The `tail` handler -/

theorem getD_set_self (l : List Slot) (i : Nat) (v : Slot) (h : i < l.length) :
    (l.set i v).getD i .null = v := by
  simp [List.getElem?_set_self h]

theorem getD_set_ne (l : List Slot) {i j : Nat} (v : Slot) (h : i ≠ j) :
    (l.set i v).getD j .null = l.getD j .null := by
  simp [List.getElem?_set_ne h]

theorem ringInv_init : RingInv [] ⟨List.replicate MAX_LINES .null, 0, 0⟩ := by
  refine ⟨by simp, rfl, rfl, ?_, ?_⟩
  · intro k _ hk
    simp at hk
  · intro j _ hj
    simp [List.getElem?_replicate, hj]

theorem ringInv_step (pre : List (List Char)) (buffer : List Char) (st : TailState)
    (h : RingInv pre st) :
    RingInv (pre ++ [buffer])
      { lines := st.lines.set st.currentLine (.str (strdup buffer))
        currentLine := (st.currentLine + 1) % MAX_LINES
        totalLines := st.totalLines + 1 } := by
  obtain ⟨h₁, h₂, h₃, h₄, h₅⟩ := h
  have hM : MAX_LINES = 10 := rfl
  rw [hM] at h₁ h₂ h₄ h₅
  unfold RingInv
  simp only [List.length_set, List.length_append, List.length_singleton, hM]
  refine ⟨h₁, ?_, ?_, ?_, ?_⟩
  · rw [h₂]; omega
  · rw [h₃]
  · intro k hk₁ hk₂
    by_cases hk : k = pre.length
    · subst hk
      rw [h₂, getD_set_self _ _ _ (by omega)]
      simp
    · have hne : st.currentLine ≠ k % 10 := by rw [h₂]; omega
      rw [getD_set_ne _ _ hne, h₄ k (by omega) (by omega),
        List.getD_append _ _ _ _ (by omega)]
  · intro j hj₁ hj₂
    have hne : st.currentLine ≠ j := by rw [h₂]; omega
    rw [getD_set_ne _ _ hne]
    exact h₅ j (by omega) hj₂

theorem readLines_inv : ∀ (file pre : List (List Char)) (st : TailState),
    RingInv pre st → RingInv (pre ++ file) (readLines file st) := by
  intro file
  induction file with
  | nil => intro pre st h; simpa [readLines] using h
  | cons buffer file ih =>
    intro pre st h
    have := ih (pre ++ [buffer]) _ (ringInv_step pre buffer st h)
    simpa [readLines] using this

theorem text_strdup (l : List Char) : text (strdup l) = text l := by
  unfold text strdup
  congr 1
  rw [List.takeWhile_eq_self_iff]
  intro c hc
  have h := List.mem_takeWhile_imp hc
  exact h

theorem text_of_no_NUL (l : List Char) (h : ∀ c ∈ l, c ≠ NUL) : text l = String.mk l := by
  unfold text
  congr 1
  rw [List.takeWhile_eq_self_iff]
  intro c hc
  simpa using h c hc

theorem printLoop_eq (file : List (List Char)) (st : TailState) (h : RingInv file st) :
    ∀ (fuel i : Nat), i ≤ min file.length MAX_LINES → MAX_LINES < fuel + i →
      printLoop st.lines (if st.totalLines < MAX_LINES then 0 else st.currentLine) fuel i =
        (file.drop (file.length - min file.length MAX_LINES + i)).map
          fun l => Event.stdout (text l) := by
  obtain ⟨h₁, h₂, h₃, h₄, h₅⟩ := h
  have hM : MAX_LINES = 10 := rfl
  rw [hM] at h₁ h₂ h₄ h₅
  rw [h₂, h₃, hM]
  intro fuel
  induction fuel with
  | zero => intro i hi hf; omega
  | succ fuel ih =>
    intro i hi hf
    rw [printLoop, hM]
    by_cases hlt : i < min file.length 10
    · have hk : file.length - min file.length 10 + i < file.length := by omega
      have hslot : ((if file.length < 10 then 0 else file.length % 10) + i) % 10 =
          (file.length - min file.length 10 + i) % 10 := by
        split <;> omega
      rw [if_pos (by omega), hslot, h₄ _ (by omega) hk, List.drop_eq_getElem_cons hk,
        List.map_cons, List.getD_eq_getElem _ _ hk]
      simp only []
      rw [text_strdup, ih (i + 1) (by omega) (by omega)]
      rfl
    · have hi' : i = min file.length 10 := by omega
      have hnil : file.drop (file.length - min file.length 10 + i) = [] :=
        List.drop_eq_nil_of_le (by omega)
      rw [hnil, List.map_nil]
      by_cases h10 : i < 10
      · have hn : file.length < 10 := by omega
        rw [if_pos h10, if_pos hn, Nat.zero_add, Nat.mod_eq_of_lt h10, h₅ i (by omega) h10]
      · rw [if_neg h10]

theorem printLastLines_eq (filename : List Char) (file : List (List Char)) :
    printLastLines filename (some file) =
      (lastLines file).map fun l => Event.stdout (text l) := by
  have hinv := readLines_inv file [] _ ringInv_init
  rw [List.nil_append] at hinv
  have h := printLoop_eq file _ hinv (MAX_LINES + 1) 0 (Nat.zero_le _) (by omega)
  rw [Nat.add_zero] at h
  exact h

theorem tail_one_file (files : List Char → Option (List (List Char))) (filename : List Char) :
    tail files [.str "tail".toList, .str filename, .null] 2 =
      some (printLastLines filename (files filename)) := by
  simp [tail, tailLoop]

/-- C11 (amended): for every readable file whose lines contain no NUL byte,
`printLastLines` prints exactly the last `min n MAX_LINES` of the `n` lines of
the file, each once and in the order of the file, where `MAX_LINES` is 10; for
an empty file it prints nothing; and `tail` with one file argument prints just
that. -/
theorem printLastLines_prints_last (filename : List Char) (file : List (List Char))
    (hN : ∀ l ∈ file, ∀ c ∈ l, c ≠ NUL) :
    printLastLines filename (some file) =
        (lastLines file).map (fun l => Event.stdout (String.mk l)) ∧
      (lastLines file).length = min file.length 10 ∧
      lastLines file <:+ file ∧
      printLastLines filename (some []) = [] ∧
      ∀ files : List Char → Option (List (List Char)), files filename = some file →
        tail files [.str "tail".toList, .str filename, .null] 2 =
          some ((lastLines file).map (fun l => Event.stdout (String.mk l))) := by
  have hmap : (lastLines file).map (fun l => Event.stdout (text l)) =
      (lastLines file).map (fun l => Event.stdout (String.mk l)) := by
    apply List.map_congr_left
    intro l hl
    rw [text_of_no_NUL l (hN l (List.mem_of_mem_drop hl))]
  have hmain : printLastLines filename (some file) =
      (lastLines file).map (fun l => Event.stdout (String.mk l)) := by
    rw [printLastLines_eq, hmap]
  refine ⟨hmain, ?_, List.drop_suffix _ _, rfl, ?_⟩
  · have hM : MAX_LINES = 10 := rfl
    unfold lastLines
    rw [List.length_drop, hM]
    omega
  · intro files hf
    rw [tail_one_file, hf, hmain]

theorem printLastLines_prints_last_witness :
    (∀ l ∈ (["1\n".toList, "2\n".toList, "3\n".toList, "4\n".toList, "5\n".toList, "6\n".toList,
        "7\n".toList, "8\n".toList, "9\n".toList, "10\n".toList, "11\n".toList, "12\n".toList] :
        List (List Char)), ∀ c ∈ l, c ≠ NUL) ∧
      printLastLines "notes.txt".toList (some
        ["1\n".toList, "2\n".toList, "3\n".toList, "4\n".toList, "5\n".toList, "6\n".toList,
        "7\n".toList, "8\n".toList, "9\n".toList, "10\n".toList, "11\n".toList, "12\n".toList]) =
        [.stdout "3\n", .stdout "4\n", .stdout "5\n", .stdout "6\n", .stdout "7\n",
        .stdout "8\n", .stdout "9\n", .stdout "10\n", .stdout "11\n", .stdout "12\n"] :=
  ⟨by decide,
    (printLastLines_prints_last "notes.txt".toList
        ["1\n".toList, "2\n".toList, "3\n".toList, "4\n".toList, "5\n".toList, "6\n".toList,
        "7\n".toList, "8\n".toList, "9\n".toList, "10\n".toList, "11\n".toList, "12\n".toList]
        (by decide)).1.trans (by decide)⟩


/-- C11 (as stated, refuted): on the readable file with the two lines
`ab\0cd` and `xy`, `printLastLines` prints `ab` and then the line `xy`: the
copy that `strdup` makes and `printf("%s", ...)` prints ends at the NUL byte,
so the first line is not printed as it stands in the file. -/
theorem printLastLines_cuts_at_NUL :
    printLastLines "f".toList (some [['a', 'b', NUL, 'c', 'd', '\n'], "xy\n".toList]) =
        [.stdout "ab", .stdout "xy\n"] ∧
      printLastLines "f".toList (some [['a', 'b', NUL, 'c', 'd', '\n'], "xy\n".toList]) ≠
        (lastLines [['a', 'b', NUL, 'c', 'd', '\n'], "xy\n".toList]).map
          (fun l => Event.stdout (String.mk l)) := by
  decide

end MiniShell
